import Mathlib

/-!
# Verification of the emilybot message classifier and sandbox execution engine

This file is a shallow embedding, in Lean 4, of the core of the `emilybot`
repository:

* the Python string primitives the code relies on (`str.strip`, `str.split`,
  `str.splitlines`, `str.lower`, the `in` substring test, `str.isspace`),
* the quoted-word lexer (`emilybot/parser/string_view.py`, `StringView`),
* path validation (`emilybot/validation.py`, `validate_path`),
* the message classifier (`emilybot/parser/command_parser.py`,
  `parse_command` / `parse_command_invocation`, together with
  `emilybot/parser/list_children_parser.py` and
  `emilybot/parser/js_parser.py`),
* code-fence stripping (`emilybot/execute/code_extraction.py`,
  `extract_js_code`),
* the sandboxed JavaScript executor
  (`emilybot/execute/executor.py` and the legacy
  `emilybot/execute/javascript_executor.py`), modelled as pure functions of
  the resolved outcome of their subprocess interaction.

Python exceptions are modelled with `Except`: a function that can raise
returns `Except PyErr α`, and a `try/except` block becomes a `match` on that
result.  Machine-level details that no claim depends on (actual process
spawning, file I/O) are abstracted into an explicit outcome datatype that
enumerates the cases the Python code distinguishes.
-/

namespace Emilybot

/-! ## Python string primitives

All string functions are defined on `List Char` and mirror CPython's
behaviour.  `Char` stands for a Unicode code point, exactly as in Python. -/

/-- The set of characters for which Python's `str.isspace` returns `True`
(and which `str.strip()` with no argument removes): U+0009–U+000D,
U+001C–U+001F, U+0020, U+0085, U+00A0, U+1680, U+2000–U+200A, U+2028,
U+2029, U+202F, U+205F, U+3000. -/
def pySpaceChars : List Char :=
  ['\u0009', '\u000a', '\u000b', '\u000c', '\u000d', '\u001c', '\u001d',
   '\u001e', '\u001f', '\u0020', '\u0085', '\u00a0', '\u1680', '\u2000',
   '\u2001', '\u2002', '\u2003', '\u2004', '\u2005', '\u2006', '\u2007',
   '\u2008', '\u2009', '\u200a', '\u2028', '\u2029', '\u202f', '\u205f',
   '\u3000']

/-- `str.isspace` for one character. -/
def isPySpace (c : Char) : Bool := pySpaceChars.contains c

/-- Python `str.strip()`: remove leading and trailing whitespace. -/
def pyStripL (l : List Char) : List Char :=
  ((l.dropWhile isPySpace).reverse.dropWhile isPySpace).reverse

/-- Python `str.strip()` on `String`. -/
def pyStrip (s : String) : String := ⟨pyStripL s.data⟩

/-- Python substring containment `needle in hay`. -/
def pyInSub (needle : List Char) : List Char → Bool
  | [] => needle.isPrefixOf []
  | c :: t => needle.isPrefixOf (c :: t) || pyInSub needle t

/-- Python `str.split(sep)` for a one-character separator: `"".split(sep)`
is `[""]`, and empty fields are kept. -/
def pySplitChar (sep : Char) : List Char → List (List Char)
  | [] => [[]]
  | c :: t =>
    if c == sep then [] :: pySplitChar sep t
    else
      match pySplitChar sep t with
      | [] => [[c]]
      | h :: r => (c :: h) :: r

/-- Python `str.replace(a, b)` for one-character arguments. -/
def pyReplaceChar (a b : Char) (l : List Char) : List Char :=
  l.map (fun c => if c == a then b else c)

/-- The characters Python's `str.splitlines` treats as line boundaries:
LF, CR (with CRLF as one boundary), VT, FF, FS, GS, RS, NEL, LSEP, PSEP. -/
def isPyLineBreak (c : Char) : Bool :=
  c == '\u000a' || c == '\u000d' || c == '\u000b' || c == '\u000c' ||
  c == '\u001c' || c == '\u001d' || c == '\u001e' || c == '\u0085' ||
  c == '\u2028' || c == '\u2029'

/-- Worker for `pySplitlines`: `acc` holds the current line, reversed.
A `"\r\n"` pair is one boundary; a lone boundary character ends the line;
a boundary at the very end does not open a final empty line. -/
def slAux : List Char → List Char → List (List Char)
  | [], acc => [acc.reverse]
  | [c], acc =>
    if isPyLineBreak c then [acc.reverse] else [(c :: acc).reverse]
  | c :: b :: t, acc =>
    if c == '\u000d' && b == '\u000a' then
      acc.reverse :: (match t with | [] => [] | c' :: t' => slAux (c' :: t') [])
    else if isPyLineBreak c then
      acc.reverse :: slAux (b :: t) []
    else slAux (b :: t) (c :: acc)

/-- Python `str.splitlines()`: `""` gives `[]`, a trailing line terminator
does not produce a final empty line. -/
def pySplitlines : List Char → List (List Char)
  | [] => []
  | c :: t => slAux (c :: t) []

/-- Python `str.lower()`, restricted to ASCII case mapping.  None of the
markers the code scans for (`"memory"`, `"out of memory"`, `"syntaxerror"`,
`"syntax error"`, `"```"`, `"js"`, …) contain a character that any
non-ASCII code point lowercases to, so the restriction does not change any
of the scans modelled here. -/
def pyLowerChar (c : Char) : Char :=
  if 'A' ≤ c ∧ c ≤ 'Z' then Char.ofNat (c.toNat + 32) else c

/-- ASCII `str.lower()` on a character list. -/
def pyLower (l : List Char) : List Char := l.map pyLowerChar

end Emilybot

namespace Emilybot

/-! ## The quoted-word lexer (`emilybot/parser/string_view.py`)

`StringView` is a buffer plus a cursor.  Its methods are embedded as
functions of the buffer and the cursor index, returning the produced value
together with the new index.  The three lexing exceptions of the source are
the constructors of `LexErr`. -/

/-- The exception classes `UnexpectedQuoteError`,
`InvalidEndOfQuotedStringError` and `ExpectedClosingQuoteError`, carrying
the same payload as the source. -/
inductive LexErr
  | unexpectedQuote (quote : Char)
  | invalidEndOfQuotedString (char : Char)
  | expectedClosingQuote (closeQuote : Char)
deriving DecidableEq, Repr

/-- The `_quotes` table: map from opening to closing quote characters. -/
def pyQuotes : List (Char × Char) :=
  [('"', '"'), ('‘', '’'), ('‚', '‛'),
   ('“', '”'), ('„', '‟'), ('⹂', '⹂'),
   ('「', '」'), ('『', '』'), ('〝', '〞'),
   ('﹁', '﹂'), ('﹃', '﹄'), ('＂', '＂'),
   ('｢', '｣'), ('«', '»'), ('‹', '›'),
   ('《', '》'), ('〈', '〉')]

/-- `_quotes.get(c)`. -/
def quoteClose (c : Char) : Option Char :=
  (pyQuotes.find? (fun p => p.1 == c)).map (fun p => p.2)

/-- `_all_quotes`: every opening or closing quote character. -/
def allQuotes : List Char :=
  pyQuotes.map (fun p => p.1) ++ pyQuotes.map (fun p => p.2)

/-! `StringView` is a buffer plus a cursor index.  The embedding
represents a view by the *suffix* of the buffer from the cursor
(`buffer[index:]`); every method consumes characters from the front and
returns the rest of the suffix, which composes exactly like the mutable
index of the source. -/

/-- `StringView.skip_ws`: drop leading whitespace. -/
def skipWsRun (s : List Char) : List Char := s.dropWhile isPySpace

/-- `StringView.get_word`: the maximal non-whitespace run at the cursor,
and the view after it. -/
def getWordRun (s : List Char) : List Char × List Char :=
  let w := s.takeWhile (fun c => !isPySpace c)
  (w, s.drop w.length)

/-- The `while` loop of `StringView.get_quoted_word`.  The first list is
what follows the cursor (so its head is what `self.get()` reads next);
`acc` is `result`.  The `while not self.eof` guard of the source is always
true on loop entry — every `self.get()` that moves the cursor to the end
returns inside the loop — so the loop body is recursion on the unread
suffix.  In the `[]` cases `self.get()` returned `None`. -/
def gqwRun (isQuoted : Bool) (closeQuote : Char) (escaped : List Char) :
    List Char → List Char → Except LexErr (Option (List Char) × List Char)
  | [], acc =>
    if isQuoted then .error (.expectedClosingQuote closeQuote)
    else .ok (some acc, [])
  | ['\\'], acc =>
    -- backslash as the final character
    if isQuoted then .error (.expectedClosingQuote closeQuote)
    else .ok (some acc, [])
  | '\\' :: nxt :: rest', acc =>
    if nxt ∈ escaped then gqwRun isQuoted closeQuote escaped rest' (acc ++ [nxt])
    else
      -- `self.undo()`: re-read the escaped character as `current`
      gqwRun isQuoted closeQuote escaped (nxt :: rest') (acc ++ ['\\'])
  | cur :: rest, acc =>
    if !isQuoted && cur ∈ allQuotes then .error (.unexpectedQuote cur)
    else if isQuoted && cur == closeQuote then
      match rest with
      | [] => .ok (some acc, [])
      | nxt :: rest' =>
        if isPySpace nxt then .ok (some acc, rest')
        else .error (.invalidEndOfQuotedString nxt)
    else if !isQuoted && isPySpace cur then .ok (some acc, rest)
    else gqwRun isQuoted closeQuote escaped rest (acc ++ [cur])

/-- `StringView.get_quoted_word`.  Returns the word (or `none` at end of
input) and the view after it.  In the unquoted case the source's
`close_quote` is `None`; it is never consulted, so the current character
stands in for it. -/
def getQuotedWordRun (s : List Char) :
    Except LexErr (Option (List Char) × List Char) :=
  match s with
  | [] => .ok (none, [])
  | cur :: rest =>
    match quoteClose cur with
    | some close => gqwRun true close [cur, close] rest []
    | none => gqwRun false cur allQuotes rest [cur]

/-- The `while` loop of `_parse_arguments`
(`emilybot/parser/command_parser.py`): repeatedly take a quoted word and
skip whitespace.  The loop runs at most once per buffer character
(`get_quoted_word` always consumes at least one), so `fuel` bounds the
iteration count; `parseArguments` supplies more fuel than the loop can
use, and the fuel-exhausted case is unreachable.  The inner
`if arg is None: break` of the source is the `(none, _)` case. -/
def parseArgsLoop : Nat → List Char → Except LexErr (List (List Char))
  | 0, _ => .ok []
  | _ + 1, [] => .ok []
  | fuel + 1, s@(_ :: _) =>
    match getQuotedWordRun s with
    | .error e => .error e
    | .ok (none, _) => .ok []
    | .ok (some a, rem) =>
      match parseArgsLoop fuel (skipWsRun rem) with
      | .error e => .error e
      | .ok args => .ok (a :: args)

/-- `_parse_arguments`: skip leading whitespace, then the loop. -/
def parseArguments (s : List Char) : Except LexErr (List (List Char)) :=
  parseArgsLoop (s.length + 1) (skipWsRun s)

end Emilybot

namespace Emilybot

/-! ## Path validation (`emilybot/validation.py`) -/

/-- `MIN_LENGTH`. -/
def MIN_LENGTH : Nat := 2

/-- `MAX_LENGTH`. -/
def MAX_LENGTH : Nat := 100

/-- The regex class `[a-zA-Z0-9]`. -/
def isAsciiAlnum (c : Char) : Bool :=
  ('a' ≤ c && c ≤ 'z') || ('A' ≤ c && c ≤ 'Z') || ('0' ≤ c && c ≤ '9')

/-- The regex class `[a-zA-Z0-9_/\-]` of `VALID_PATTERN`. -/
def isValidPatternChar (c : Char) : Bool :=
  isAsciiAlnum c || c == '_' || c == '/' || c == '-'

/-- `VALID_PATTERN.match(component)` where
`VALID_PATTERN = re.compile(r"^[a-zA-Z0-9_/\-]+$")`.  Python's `$` also
matches just before one trailing newline, so `"ab\n"` matches. -/
def validPatternMatch (l : List Char) : Bool :=
  (!l.isEmpty && l.all isValidPatternChar) ||
  (l.getLast? == some '\u000a' && !l.dropLast.isEmpty &&
    l.dropLast.all isValidPatternChar)

/-- `re.match(r"^[a-zA-Z0-9].*", component)`: the first character is an
ASCII letter or digit (`.*` then always succeeds). -/
def startsAlnum (l : List Char) : Bool :=
  match l with
  | [] => false
  | c :: _ => isAsciiAlnum c

/-- The per-component `for` loop of `validate_path`.  `is_last` is whether
the component is the final element of the filtered list.  Error messages
abbreviate the source's (the length message goes through `inflect` there).
-/
def validateComponents (allowTrailingSlash checkComponentLength : Bool) :
    List (List Char) → Except String Unit
  | [] => .ok ()
  | comp :: rest =>
    let isLast := rest.isEmpty
    if comp.isEmpty then
      if allowTrailingSlash && isLast then
        validateComponents allowTrailingSlash checkComponentLength rest
      else .error "Path components cannot be empty"
    else if comp.take 1 == ['_'] then
      .error "Path components cannot start with underscore"
    else if checkComponentLength && comp.length < MIN_LENGTH then
      .error "Path component must be at least 2 characters long"
    else if checkComponentLength && MAX_LENGTH < comp.length then
      .error "Path component cannot exceed 100 characters"
    else if !validPatternMatch comp then
      .error "Path components can only contain alphanumeric characters and underscore, dash, or slash"
    else if !startsAlnum comp then
      .error "Path components must start with a letter or digit"
    else validateComponents allowTrailingSlash checkComponentLength rest

/-- The `filtered_components` construction of `validate_path`: keep a
component when it is non-empty, or when it is the last one and the path
had a trailing slash. -/
def filterComponents (hasTrailing : Bool) : List (List Char) → List (List Char)
  | [] => []
  | [c] => if !c.isEmpty || hasTrailing then [c] else []
  | c :: rest => (if !c.isEmpty then [c] else []) ++ filterComponents hasTrailing rest

/-- `validate_path(path, allow_trailing_slash=, normalize_dots=,
normalize_dashes=, check_component_length=)`.  Returns the normalized path
on success, the `ValidationError` message on failure. -/
def validatePath (path : List Char)
    (allowTrailingSlash normalizeDots normalizeDashes checkComponentLength : Bool) :
    Except String (List Char) :=
  if path.isEmpty then .error "Path cannot be empty"
  else
    let n1 := if normalizeDots then pyReplaceChar '.' '/' path else path
    let normalized := if normalizeDashes then pyReplaceChar '-' '_' n1 else n1
    if pyInSub ['/', '/'] normalized then .error "Path components cannot be empty"
    else
      let components := pySplitChar '/' normalized
      let hasTrailing := normalized.getLast? == some '/'
      match validateComponents allowTrailingSlash checkComponentLength
          (filterComponents hasTrailing components) with
      | .error e => .error e
      | .ok _ => .ok normalized

/-! ## The parsed-message type (`emilybot/parser/types.py`)

`Command`, `JS` and `ListChildren` are the three dataclasses the classifier
can produce; they become one inductive. -/

/-- The classifier result: `Command(cmd, args)`, `JS(code)` or
`ListChildren(parent)`. -/
inductive ParsedMsg
  | command (cmd : String) (args : List String)
  | js (code : String)
  | listChildren (parent : String)
deriving DecidableEq, Repr

/-- Python exceptions that can escape the classifier: `ValueError` and the
`ArgumentParsingError` family of the lexer. -/
inductive PyErr
  | valueError (msg : String)
  | argParse (e : LexErr)
deriving DecidableEq, Repr

/-! ## `emilybot/parser/js_parser.py` -/

/-- `parse_js_code`: strip the one-character prefix and surrounding
whitespace. -/
def parseJsCode (msg : List Char) : List Char := pyStripL (msg.drop 1)

/-- The `js_patterns` table of `is_js_pattern`. -/
def jsPatterns : List (List Char) :=
  ["()", "[]", "\x7b\x7d", ";", "+", "*", "<", ">", "!", "&", "|", "^",
   "%", "~"].map String.data

/-- `is_js_pattern`. -/
def isJsPattern (content : List Char) : Bool :=
  jsPatterns.any (fun p => pyInSub p content) ||
  ("/".data.isPrefixOf content && "/".data.isSuffixOf content &&
    2 < content.length) ||
  "//".data.isPrefixOf content

/-! ## `emilybot/parser/list_children_parser.py`

The pattern `^([a-zA-Z0-9_][a-zA-Z0-9_/\-]*[a-zA-Z0-9_/])[./]+$` is
embedded as an explicit backtracking matcher: the greedy middle `*` first
takes the maximal run of its class and gives characters back one at a
time; `[./]+` anchored by `$` must cover the entire remaining suffix. -/

/-- The class `[a-zA-Z0-9_]` opening the capture group. -/
def isLcA (c : Char) : Bool := isAsciiAlnum c || c == '_'

/-- The class `[a-zA-Z0-9_/\-]` of the group's middle. -/
def isLcB (c : Char) : Bool := isAsciiAlnum c || c == '_' || c == '/' || c == '-'

/-- The class `[a-zA-Z0-9_/]` closing the capture group. -/
def isLcC (c : Char) : Bool := isAsciiAlnum c || c == '_' || c == '/'

/-- The class `[./]` of the trailing run. -/
def isDotSlash (c : Char) : Bool := c == '.' || c == '/'

/-- One candidate split: the middle takes `n` characters of `rest`, then
one closing-class character, and the rest must be a non-empty `[./]` run. -/
def lcCheck (a : Char) (rest : List Char) (n : Nat) : Option (List Char) :=
  match rest.drop n with
  | c :: ds =>
    if isLcC c && !ds.isEmpty && ds.all isDotSlash then
      some (a :: (rest.take n ++ [c]))
    else none
  | [] => none

/-- Backtracking over the middle length, longest first. -/
def lcTry (a : Char) (rest : List Char) : Nat → Option (List Char)
  | 0 => lcCheck a rest 0
  | n+1 =>
    match lcCheck a rest (n+1) with
    | some g => some g
    | none => lcTry a rest n

/-- The capture group of the list-children pattern, or `none` when the
pattern does not match. -/
def lcGroup1 (s : List Char) : Option (List Char) :=
  match s with
  | [] => none
  | a :: rest =>
    if isLcA a then lcTry a rest (rest.takeWhile isLcB).length else none

/-- `is_list_children_pattern`. -/
def isListChildrenPattern (content : List Char) : Bool :=
  (lcGroup1 content).isSome

/-- `parse_list_children`: the capture group becomes the parent; no match
raises `ValueError`. -/
def parseListChildren (content : List Char) : Except PyErr ParsedMsg :=
  match lcGroup1 content with
  | some g => .ok (.listChildren ⟨g⟩)
  | none => .error (.valueError "Content is not a valid list children pattern")

/-! ## The classifier (`emilybot/parser/command_parser.py`) -/

/-- `_parse_dot_command`.  Every control path of the source returns
`None`: when the dot-command regex matches and both halves validate,
control falls out of the `try` to the final `return None`, and the
statements that would construct a `Command` are unreachable — they stand
after a `return None` inside the `except ValidationError` handler.  The
embedding therefore maps every input to `none`. -/
def parseDotCommand (_content : List Char) : Option (String × List String) :=
  none

/-- `parse_command_invocation(message_content, prefix=pref)`.  The
`except ValidationError` of the source converts validation failures to
`ValueError`; lexing errors from `_parse_arguments` are not
`ValidationError`s and propagate. -/
def parseCommandInvocation (msg : List Char) (pref : List Char) :
    Except PyErr (String × List String) :=
  if !pref.isPrefixOf msg then
    .error (.valueError "Message content must start with the prefix")
  else
    let content := pyStripL (msg.drop pref.length)
    if content.isEmpty then
      .error (.valueError "No content found after the prefix")
    else
      let w := getWordRun content
      if w.1.isEmpty then .error (.valueError "No command name found")
      else
        match validatePath w.1 true true false true with
        | .error _ => .error (.valueError "Invalid command name")
        | .ok normalized =>
          match parseArguments w.2 with
          | .error e => .error (.argParse e)
          | .ok args => .ok (⟨normalized⟩, args.map fun a => (⟨a⟩ : String))

/-- `parse_command(message_content)`: the message classifier. -/
def parseCommand (msgS : String) : Except PyErr ParsedMsg :=
  let msg := msgS.data
  if !(List.isPrefixOf ['$'] msg) then
    .error (.valueError "Message content must start with '$'")
  else if msg == ['$'] then
    .error (.valueError "No content found after '$'")
  else
    let contentWithoutPrefix := pyStripL (msg.drop 1)
    if (match msg.drop 1 with | c :: _ => isPySpace c | [] => false) then
      -- `"$ …"`: dollar followed by whitespace is JavaScript
      let code := pyStripL (msg.drop 1)
      if code.isEmpty then .error (.valueError "No content found after '$'")
      else .ok (.js ⟨parseJsCode msg⟩)
    else if contentWithoutPrefix.isEmpty then
      .error (.valueError "No content found after '$'")
    else if isListChildrenPattern contentWithoutPrefix then
      parseListChildren contentWithoutPrefix
    else if "/".data.isPrefixOf contentWithoutPrefix &&
        "/".data.isSuffixOf contentWithoutPrefix &&
        2 < contentWithoutPrefix.length then
      .ok (.js msgS)
    else if "//".data.isPrefixOf contentWithoutPrefix then
      .ok (.js msgS)
    else
      let dotCommand :=
        if pyInSub ['.'] contentWithoutPrefix &&
            !isJsPattern contentWithoutPrefix then
          parseDotCommand contentWithoutPrefix
        else none
      match dotCommand with
      | some (cmd, args) => .ok (.command cmd args)
      | none =>
        match parseCommandInvocation msg ['$'] with
        | .ok (cmd, args) => .ok (.command cmd args)
        | .error (.valueError _) => .ok (.js msgS)
        | .error e => .error e

end Emilybot

namespace Emilybot

/-- Python `sep.join(parts)` for a one-character separator. -/
def pyJoin (sep : Char) : List (List Char) → List Char
  | [] => []
  | [x] => x
  | x :: y :: t => x ++ sep :: pyJoin sep (y :: t)

/-! ## Code-fence stripping (`emilybot/execute/code_extraction.py`) -/

/-- `_is_code_block_opener(line)`: the stripped line starts with three
backticks and carries at most a space-free tag after them. -/
def isCodeBlockOpener (line : List Char) : Bool :=
  let stripped := pyStripL line
  if !("```".data.isPrefixOf stripped) then false
  else
    let content := pyStripL (stripped.drop 3)
    if content.isEmpty then true
    else !(pyInSub [' '] content)

/-- `extract_js_code(raw_code)`. -/
def extractJsCode (rawCode : String) : String :=
  let code := pyStripL rawCode.data
  if code.isEmpty then ""
  else if !pyInSub ['\u000a'] code then
    -- single-line case
    if "```".data.isPrefixOf code && "```".data.isSuffixOf code then
      let t := code.drop 3
      ⟨pyStripL (t.take (t.length - 3))⟩
    else ⟨code⟩
  else
    let lines0 := pySplitlines code
    let lines1 :=
      match lines0 with
      | [] => []
      | l0 :: rest => if isCodeBlockOpener l0 then rest else l0 :: rest
    let lines2 :=
      match lines1.getLast? with
      | some lastLine =>
        if pyStripL lastLine == "```".data then lines1.dropLast else lines1
      | none => lines1
    if lines2.isEmpty then ""
    else ⟨pyStripL (pyJoin '\u000a' lines2)⟩

/-! ## The sandbox execution engine (`emilybot/execute/executor.py`)

`JavaScriptExecutor.execute` is `async` and talks to the operating system.
It is embedded as a pure function of (a) its configuration and (b) the
resolved outcome of the subprocess interaction, an explicit datatype
enumerating the cases the code distinguishes at its await/IO points.
Python exceptions inside the `try` are `Except.error` values of
`executeBody`; the `try/except` chain at the end of `execute` is the outer
`match`. -/

/-- What `json.loads` produced from the runtime's stdout: the fields read
by `parsed.get("output", "")` and `parsed.get("value", None)`. -/
structure JsonRecord where
  outputField : Option String
  valueField : Option String
deriving DecidableEq, Repr

/-- The exception classes separated by the `except` chain of `execute`. -/
inductive PyExc
  | fileNotFound
  | typeOrValueError (msg : String)
  | jsExecutionError (errorType : String) (message : String)
  | otherException (msg : String)
deriving DecidableEq, Repr

/-- The resolved outcome of one subprocess interaction.  For `exited`,
`stdoutText`/`stderrText` are the decoded and stripped output texts, and
`stdoutJson` is the result of `json.loads(stdout_text)` (only consulted on
a zero exit code; `.error` is the `json.JSONDecodeError`, a `ValueError`).
-/
inductive SubprocessOutcome
  | jsonDumpsFails (msg : String)     -- `json.dumps(context)` raised TypeError/ValueError
  | denoMissing                       -- `FileNotFoundError` while spawning
  | timedOut (processAlreadyExited : Bool)  -- `asyncio.TimeoutError` won the race
  | outputUndecodable (msg : String)  -- `UnicodeDecodeError` (a `ValueError`) while decoding
  | exited (returncode : Int) (stdoutText stderrText : String)
      (stdoutJson : Except String JsonRecord)
  | unexpectedError (msg : String)    -- any other exception inside the `try`
deriving Repr

/-- Engine configuration: `timeoutStr` is `str(self.timeout)` as Python
interpolates it into the timeout message, `denoPath` is `self.deno_path`.
-/
structure ExecutorConfig where
  timeoutStr : String
  denoPath : String
deriving DecidableEq, Repr

/-- `JavaScriptExecutor._classify_error` (`execute/executor.py`): memory
markers, then syntax markers, else runtime. -/
def classifyError (stderr : String) : String :=
  let l := pyLower stderr.data
  if pyInSub "memory".data l || pyInSub "out of memory".data l then "memory"
  else if pyInSub "syntaxerror".data l || pyInSub "syntax error".data l then
    "syntax"
  else "runtime"

/-- The body of the `try` block of `execute` (`execute/executor.py`),
returning the `(success, output, value)` triple or the exception that
escapes to the `except` chain. -/
def executeBody (cfg : ExecutorConfig) (o : SubprocessOutcome) :
    Except PyExc (Bool × String × Option String) :=
  match o with
  | .jsonDumpsFails m => .error (.typeOrValueError m)
  | .denoMissing => .error .fileNotFound
  | .timedOut _ =>
    .ok (false,
      "⏱️ JavaScript execution timed out (" ++ cfg.timeoutStr ++ "s limit)",
      none)
  | .outputUndecodable m => .error (.typeOrValueError m)
  | .exited rc _stdout stderrText stdoutJson =>
    if rc == 0 then
      match stdoutJson with
      | .error m => .error (.typeOrValueError m)
      | .ok j => .ok (true, j.outputField.getD "", j.valueField)
    else
      let errorType := classifyError stderrText
      let errorMessage :=
        if stderrText == "" then "Unknown execution error" else stderrText
      if errorType == "memory" then
        .ok (false, "💾 JavaScript execution exceeded memory limits", none)
      else if errorType == "syntax" then
        .ok (false, "❌ JavaScript syntax error: " ++ stderrText, none)
      else if errorType == "runtime" then
        .ok (false, "⚠️ JavaScript runtime error: " ++ stderrText, none)
      else
        .ok (false, "❌ JavaScript execution failed: " ++ errorMessage, none)
  | .unexpectedError m => .error (.otherException m)

/-- `JavaScriptExecutor.execute` (`execute/executor.py`): the `try` body
wrapped in the `except` chain.  `JSExecutionError` is re-raised; every
other exception becomes a `success = False` triple. -/
def execute (cfg : ExecutorConfig) (o : SubprocessOutcome) :
    Except PyExc (Bool × String × Option String) :=
  match executeBody cfg o with
  | .ok r => .ok r
  | .error .fileNotFound =>
    .ok (false, "❌ Deno executable not found at: " ++ cfg.denoPath, none)
  | .error (.typeOrValueError m) =>
    .ok (false, "❌ Failed to encode context as JSON: " ++ m, none)
  | .error (.jsExecutionError t m) => .error (.jsExecutionError t m)
  | .error (.otherException m) =>
    .ok (false, "❌ Unexpected execution error: " ++ m, none)

/-- The spawned process as the engine sees it: still running, or dead
(exited or killed; asyncio's child watcher reaps a dead child once it is
waited on or observed). -/
inductive ProcState
  | running
  | dead
deriving DecidableEq, Repr

/-- `process.kill()`: kills a running process; raises
`ProcessLookupError` when the process is already gone. -/
def procKill : ProcState → Except Unit ProcState
  | .running => .ok .dead
  | .dead => .error ()

/-- `await process.wait()`: wait for (and reap) the process; it is dead
afterwards. -/
def procWait : ProcState → ProcState := fun _ => .dead

/-- The `except asyncio.TimeoutError` handler of `execute`:
`try: process.kill(); await process.wait() except ProcessLookupError:
pass`. -/
def timeoutCleanup (st : ProcState) : ProcState :=
  match procKill st with
  | .ok st' => procWait st'
  | .error _ => st

/-! ## The legacy engine (`emilybot/execute/javascript_executor.py`)

`run_code` still instantiates this older copy of the executor.  Its
`execute` differs from `execute/executor.py` in the timeout message
(hard-coded `"1 second limit"`) and in its `_classify_error` (a timeout
kind, checked first); the surrounding structure is identical. -/

/-- `JavaScriptExecutor._classify_error`
(`execute/javascript_executor.py`): timeout markers first, then memory,
then syntax, else runtime. -/
def legacyClassifyError (stderr : String) : String :=
  let l := pyLower stderr.data
  if pyInSub "timed out".data l || pyInSub "timeout".data l then "timeout"
  else if pyInSub "memory".data l || pyInSub "out of memory".data l then
    "memory"
  else if pyInSub "syntaxerror".data l || pyInSub "syntax error".data l then
    "syntax"
  else "runtime"

/-- The `try` body of the legacy `execute`
(`execute/javascript_executor.py`). -/
def legacyExecuteBody (o : SubprocessOutcome) :
    Except PyExc (Bool × String × Option String) :=
  match o with
  | .jsonDumpsFails m => .error (.typeOrValueError m)
  | .denoMissing => .error .fileNotFound
  | .timedOut _ =>
    .ok (false, "⏱️ JavaScript execution timed out (1 second limit)", none)
  | .outputUndecodable m => .error (.typeOrValueError m)
  | .exited rc _stdout stderrText stdoutJson =>
    if rc == 0 then
      match stdoutJson with
      | .error m => .error (.typeOrValueError m)
      | .ok j => .ok (true, j.outputField.getD "", j.valueField)
    else
      let errorType := legacyClassifyError stderrText
      let errorMessage :=
        if stderrText == "" then "Unknown execution error" else stderrText
      if errorType == "timeout" then
        .ok (false, "⏱️ JavaScript execution timed out (1 second limit)", none)
      else if errorType == "memory" then
        .ok (false, "💾 JavaScript execution exceeded memory limits", none)
      else if errorType == "syntax" then
        .ok (false, "❌ JavaScript syntax error: " ++ stderrText, none)
      else if errorType == "runtime" then
        .ok (false, "⚠️ JavaScript runtime error: " ++ stderrText, none)
      else
        .ok (false, "❌ JavaScript execution failed: " ++ errorMessage, none)
  | .unexpectedError m => .error (.otherException m)

/-- The legacy `execute`: same `except` chain as the current engine. -/
def legacyExecute (cfg : ExecutorConfig) (o : SubprocessOutcome) :
    Except PyExc (Bool × String × Option String) :=
  match legacyExecuteBody o with
  | .ok r => .ok r
  | .error .fileNotFound =>
    .ok (false, "❌ Deno executable not found at: " ++ cfg.denoPath, none)
  | .error (.typeOrValueError m) =>
    .ok (false, "❌ Failed to encode context as JSON: " ++ m, none)
  | .error (.jsExecutionError t m) => .error (.jsExecutionError t m)
  | .error (.otherException m) =>
    .ok (false, "❌ Unexpected execution error: " ++ m, none)

end Emilybot

namespace Emilybot

/-! ## Auxiliary definitions used by the statements and proofs -/

/-- Helper for reasoning about `pySplitlines`: prepend an already-seen
piece to the first produced line. -/
def prependAcc (acc : List Char) : List (List Char) → List (List Char)
  | [] => []
  | h :: t => (acc ++ h) :: t

/-- No two adjacent slashes (the complement of containing `"//"`). -/
def noDS : List Char → Bool
  | [] => true
  | [_] => true
  | a :: b :: t => !(a == '/' && b == '/') && noDS (b :: t)

/-- A path rendered from components and the separators between them
(each separator one character, `'.'` or `'/'` in the intended use). -/
def renderPath : List (List Char) → List Char → List Char
  | [], _ => []
  | [comp], _ => comp
  | comp :: _ :: _, [] => comp
  | comp :: comp' :: comps, s :: seps => comp ++ s :: renderPath (comp' :: comps) seps

/-- The constraints `validate_path` actually enforces on one component:
length between `MIN_LENGTH` and `MAX_LENGTH`, first character an ASCII
letter or digit, every character in `[A-Za-z0-9_-]`. -/
def codeComponentOK (comp : List Char) : Bool :=
  decide (MIN_LENGTH ≤ comp.length) && decide (comp.length ≤ MAX_LENGTH) &&
  startsAlnum comp &&
  comp.all (fun ch => isAsciiAlnum ch || ch == '_' || ch == '-')

/-- The spec's name grammar, stated from the spec's words for comparison
with the code: a component matches `[A-Za-z0-9_][A-Za-z0-9_-]*`. -/
def specGrammarComponentOk (comp : List Char) : Bool :=
  match comp with
  | [] => false
  | c :: rest =>
    (isAsciiAlnum c || c == '_') &&
    rest.all (fun ch => isAsciiAlnum ch || ch == '_' || ch == '-')

/-- The spec's name grammar for a whole path: non-empty, and after folding
dots to slashes every `/`-separated component matches the component
grammar (this also rules out a trailing separator). -/
def specGrammarPathOk (p : String) : Bool :=
  !p.data.isEmpty &&
  (pySplitChar '/' (pyReplaceChar '.' '/' p.data)).all specGrammarComponentOk

/-- The fence wrapping of the round-trip claim: a bare opening fence line,
the code, a bare closing fence line. -/
def fenceWrap (c : String) : String := "```\u000a" ++ c ++ "\u000a```"

end Emilybot

namespace Emilybot

/-! ## Lemmas about the Python string primitives -/

theorem isPrefixOf_append_self (n suf : List Char) :
    n.isPrefixOf (n ++ suf) = true :=
  List.isPrefixOf_iff_prefix.mpr (List.prefix_append n suf)

theorem pyInSub_here (n rest : List Char) : pyInSub n (n ++ rest) = true := by
  rcases h : n ++ rest with _ | ⟨c, t⟩
  · have hn : n = [] := (List.append_eq_nil.mp h).1
    subst hn
    rfl
  · show (n.isPrefixOf (c :: t) || pyInSub n t) = true
    rw [← h, isPrefixOf_append_self]
    rfl

theorem pyInSub_sandwich (needle pre suf : List Char) :
    pyInSub needle (pre ++ needle ++ suf) = true := by
  induction pre with
  | nil => simpa using pyInSub_here needle suf
  | cons p ps ih =>
    rw [List.cons_append, List.cons_append, pyInSub, ih]
    simp

theorem pyInSub_false_of_head_not_mem (a : Char) (as l : List Char)
    (h : a ∉ l) : pyInSub (a :: as) l = false := by
  induction l with
  | nil => rfl
  | cons c t ih =>
    rw [pyInSub]
    have hac : (a == c) = false := by
      simp only [beq_eq_false_iff_ne, ne_eq]
      intro hh; exact h (hh ▸ List.mem_cons_self c t)
    simp only [List.isPrefixOf, hac, Bool.false_and, Bool.false_or]
    exact ih (fun hm => h (List.mem_cons_of_mem c hm))

theorem pyInSub_singleton_false (a : Char) (l : List Char)
    (h : a ∉ l) : pyInSub [a] l = false :=
  pyInSub_false_of_head_not_mem a [] l h

theorem pyInSub_dslash_false (l : List Char) (h : noDS l = true) :
    pyInSub ['/', '/'] l = false := by
  induction l with
  | nil => rfl
  | cons a t ih =>
    rw [pyInSub]
    cases t with
    | nil => simp [pyInSub, List.isPrefixOf]
    | cons b t2 =>
      rw [noDS] at h
      simp only [Bool.and_eq_true, Bool.not_eq_true'] at h
      have hnds := ih h.2
      simp only [List.isPrefixOf, hnds, Bool.or_false]
      rcases Bool.and_eq_false_iff.mp h.1 with h1 | h1
      · simp [beq_eq_false_iff_ne, ne_eq] at h1 ⊢
        intro hh; exact absurd hh.symm h1
      · simp [beq_eq_false_iff_ne, ne_eq] at h1 ⊢
        intro _ hh; exact absurd hh.symm h1

theorem noDS_of_no_slash (l : List Char) (h : ∀ c ∈ l, c ≠ '/') :
    noDS l = true := by
  induction l with
  | nil => rfl
  | cons a t ih =>
    cases t with
    | nil => rfl
    | cons b t2 =>
      rw [noDS]
      have ha : (a == '/') = false := by
        simp [beq_eq_false_iff_ne]; exact h a (by simp)
      simp only [ha, Bool.false_and, Bool.not_false, Bool.true_and]
      exact ih (fun c hc => h c (List.mem_cons_of_mem a hc))

theorem noDS_append_sep (x y : List Char) (hx : ∀ c ∈ x, c ≠ '/')
    (hy : noDS y = true) (hhead : ∀ b, y.head? = some b → b ≠ '/') :
    noDS (x ++ '/' :: y) = true := by
  induction x with
  | nil =>
    cases y with
    | nil => rfl
    | cons b t =>
      rw [List.nil_append, noDS]
      have hb : (b == '/') = false := by
        simp [beq_eq_false_iff_ne]; exact hhead b rfl
      simp [hb, hy]
  | cons a xs ih =>
    have ha : (a == '/') = false := by
      simp [beq_eq_false_iff_ne]; exact hx a (by simp)
    rcases hxs : xs ++ '/' :: y with _ | ⟨b, t⟩
    · exact absurd hxs (by simp)
    · rw [List.cons_append, hxs, noDS, ← hxs]
      simp only [ha, Bool.false_and, Bool.not_false, Bool.true_and]
      exact ih (fun c hc => hx c (List.mem_cons_of_mem a hc))

theorem pySplitChar_ne_nil (sep : Char) (l : List Char) :
    pySplitChar sep l ≠ [] := by
  cases l with
  | nil => simp [pySplitChar]
  | cons c t =>
    rw [pySplitChar]
    split
    · simp
    · split <;> simp

theorem pySplitChar_no_sep (sep : Char) (l : List Char)
    (h : ∀ c ∈ l, c ≠ sep) : pySplitChar sep l = [l] := by
  induction l with
  | nil => rfl
  | cons c t ih =>
    rw [pySplitChar]
    have hc : (c == sep) = false := by
      simp [beq_eq_false_iff_ne]; exact h c (by simp)
    rw [if_neg (by simp [hc]), ih (fun a ha => h a (List.mem_cons_of_mem c ha))]

theorem pySplitChar_append_sep (sep : Char) (x r : List Char)
    (hx : ∀ c ∈ x, c ≠ sep) :
    pySplitChar sep (x ++ sep :: r) = x :: pySplitChar sep r := by
  induction x with
  | nil => rw [List.nil_append, pySplitChar, if_pos (by simp)]
  | cons a xs ih =>
    rw [List.cons_append, pySplitChar]
    have ha : (a == sep) = false := by
      simp [beq_eq_false_iff_ne]; exact hx a (by simp)
    rw [if_neg (by simp [ha]), ih (fun c hc => hx c (List.mem_cons_of_mem a hc))]

theorem pyJoin_pySplitChar (sep : Char) (l : List Char) :
    pyJoin sep (pySplitChar sep l) = l := by
  induction l with
  | nil => rfl
  | cons c t ih =>
    rw [pySplitChar]
    by_cases hc : c = sep
    · rw [if_pos (by simp [hc])]
      rcases hsp : pySplitChar sep t with _ | ⟨h2, t2⟩
      · exact absurd hsp (pySplitChar_ne_nil sep t)
      · rw [hsp] at ih
        rw [pyJoin, List.nil_append, ih, hc]
    · rw [if_neg (by simp [hc])]
      rcases hsp : pySplitChar sep t with _ | ⟨h2, t2⟩
      · exact absurd hsp (pySplitChar_ne_nil sep t)
      · rw [hsp] at ih
        cases t2 with
        | nil =>
          show pyJoin sep [c :: h2] = c :: t
          rw [pyJoin] at ih ⊢
          rw [ih]
        | cons u t3 =>
          show pyJoin sep ((c :: h2) :: u :: t3) = c :: t
          rw [pyJoin] at ih
          rw [pyJoin, List.cons_append, ih]

end Emilybot

namespace Emilybot

/-! ## Character-class facts -/

/-- No whitespace character is an identifier/path character: the 29
whitespace code points are enumerated and each is checked. -/
theorem not_pySpace_of_compChar (c : Char)
    (h : (isAsciiAlnum c || c == '_' || c == '-') = true) :
    isPySpace c = false := by
  cases hs : isPySpace c
  · rfl
  · exfalso
    have hmem : c ∈ pySpaceChars := by
      unfold isPySpace at hs
      exact List.elem_iff.mp hs
    fin_cases hmem <;> exact absurd h (by decide)

theorem not_pySpace_of_sep (c : Char) (h : c = '.' ∨ c = '/') :
    isPySpace c = false := by
  rcases h with rfl | rfl <;> rfl

theorem compChar_ne_dot (c : Char)
    (h : (isAsciiAlnum c || c == '_' || c == '-') = true) : c ≠ '.' := by
  intro hc; subst hc; exact absurd h (by decide)

theorem compChar_ne_slash (c : Char)
    (h : (isAsciiAlnum c || c == '_' || c == '-') = true) : c ≠ '/' := by
  intro hc; subst hc; exact absurd h (by decide)

theorem compChar_not_dotSlash (c : Char)
    (h : (isAsciiAlnum c || c == '_' || c == '-') = true) :
    isDotSlash c = false := by
  simp only [isDotSlash, Bool.or_eq_false_iff, beq_eq_false_iff_ne, ne_eq]
  exact ⟨compChar_ne_dot c h, compChar_ne_slash c h⟩

theorem compChar_validPattern (c : Char)
    (h : (isAsciiAlnum c || c == '_' || c == '-') = true) :
    isValidPatternChar c = true := by
  simp only [isValidPatternChar, Bool.or_eq_true] at h ⊢
  rcases h with (h | h) | h
  · exact Or.inl (Or.inl (Or.inl h))
  · exact Or.inl (Or.inl (Or.inr h))
  · exact Or.inr h

/-! ## `takeWhile`/`dropWhile`/strip lemmas -/

theorem dropWhile_eq_self_of_all {p : Char → Bool} {l : List Char}
    (h : ∀ c ∈ l, p c = false) : l.dropWhile p = l := by
  cases l with
  | nil => rfl
  | cons a t => rw [List.dropWhile_cons, h a (by simp), if_neg (by simp)]

theorem dropWhile_eq_self_of_head {p : Char → Bool} {l : List Char}
    (h : ∀ c, l.head? = some c → p c = false) : l.dropWhile p = l := by
  cases l with
  | nil => rfl
  | cons a t => rw [List.dropWhile_cons, h a rfl, if_neg (by simp)]

theorem takeWhile_eq_self_of_all {p : Char → Bool} {l : List Char}
    (h : ∀ c ∈ l, p c = true) : l.takeWhile p = l := by
  induction l with
  | nil => rfl
  | cons a t ih =>
    rw [List.takeWhile_cons, h a (by simp), if_pos rfl,
      ih (fun c hc => h c (List.mem_cons_of_mem a hc))]

theorem pyStripL_eq_self_of_all {l : List Char}
    (h : ∀ c ∈ l, isPySpace c = false) : pyStripL l = l := by
  unfold pyStripL
  rw [dropWhile_eq_self_of_all h,
    dropWhile_eq_self_of_all (fun c hc => h c (List.mem_reverse.mp hc)),
    List.reverse_reverse]

theorem pyStripL_eq_self_of_ends {l : List Char}
    (h1 : ∀ c, l.head? = some c → isPySpace c = false)
    (h2 : ∀ c, l.getLast? = some c → isPySpace c = false) :
    pyStripL l = l := by
  unfold pyStripL
  rw [dropWhile_eq_self_of_head h1,
    dropWhile_eq_self_of_head (fun c hc => h2 c (l.head?_reverse ▸ hc)),
    List.reverse_reverse]

/-- When `strip` leaves a non-empty string unchanged, neither end is
whitespace. -/
theorem ends_of_pyStripL_eq_self {l : List Char} (h : pyStripL l = l) :
    (∀ c, l.head? = some c → isPySpace c = false) ∧
    (∀ c, l.getLast? = some c → isPySpace c = false) := by
  have hlen : (pyStripL l).length = l.length := by rw [h]
  have hd : l.dropWhile isPySpace = l := by
    have hsuff : l.dropWhile isPySpace <:+ l := List.dropWhile_suffix isPySpace
    refine hsuff.eq_of_length ?_
    have h1 : (pyStripL l).length ≤ (l.dropWhile isPySpace).length := by
      unfold pyStripL
      calc ((l.dropWhile isPySpace).reverse.dropWhile isPySpace).reverse.length
          = ((l.dropWhile isPySpace).reverse.dropWhile isPySpace).length := by
            rw [List.length_reverse]
        _ ≤ (l.dropWhile isPySpace).reverse.length :=
            (List.dropWhile_suffix _).length_le
        _ = (l.dropWhile isPySpace).length := List.length_reverse _
    have h2 : (l.dropWhile isPySpace).length ≤ l.length :=
      (List.dropWhile_suffix _).length_le
    omega
  have hr : l.reverse.dropWhile isPySpace = l.reverse := by
    have : pyStripL l = (l.reverse.dropWhile isPySpace).reverse := by
      unfold pyStripL; rw [hd]
    have h3 : (l.reverse.dropWhile isPySpace).reverse = l := by rw [← this, h]
    calc l.reverse.dropWhile isPySpace
        = (l.reverse.dropWhile isPySpace).reverse.reverse := by
          rw [List.reverse_reverse]
      _ = l.reverse := by rw [h3]
  constructor
  · intro c hc
    cases l with
    | nil => simp at hc
    | cons a t =>
      have : a = c := by simpa using hc
      subst this
      by_contra hsp
      rw [List.dropWhile_cons, if_pos (by simpa using hsp)] at hd
      have := (List.dropWhile_suffix (l := t) isPySpace).length_le
      have hlen2 : (t.dropWhile isPySpace).length = t.length + 1 := by
        rw [hd]; rfl
      omega
  · intro c hc
    rcases hrev : l.reverse with _ | ⟨a, t⟩
    · have : l = [] := by simpa using congrArg List.reverse hrev
      subst this; simp at hc
    · have hac : a = c := by
        have := l.head?_reverse
        rw [hrev] at this
        simp only [List.head?_cons] at this
        rw [← this] at hc
        exact (Option.some.injEq _ _ ▸ hc).symm ▸ rfl
      subst hac
      by_contra hsp
      rw [hrev, List.dropWhile_cons, if_pos (by simpa using hsp)] at hr
      have := (List.dropWhile_suffix (l := t) isPySpace).length_le
      have hlen2 : (t.dropWhile isPySpace).length = t.length + 1 := by
        rw [hr]; rfl
      omega

end Emilybot


namespace Emilybot

/-! ## `splitlines` lemmas -/

theorem slAux_step (c b : Char) (t acc : List Char)
    (h2 : isPyLineBreak c = false) :
    slAux (c :: b :: t) acc = slAux (b :: t) (c :: acc) := by
  have hc : (c == '\u000d') = false := by
    cases hh : c == '\u000d'
    · rfl
    · exfalso
      have : c = '\u000d' := by simpa using hh
      subst this
      exact absurd h2 (by decide)
  rw [slAux.eq_def]
  simp only []
  rw [if_neg (by simp [hc]), if_neg (by simp [h2])]

theorem slAux_break (c b : Char) (t acc : List Char) (hc : c ≠ '\u000d')
    (hbr : isPyLineBreak c = true) :
    slAux (c :: b :: t) acc = acc.reverse :: slAux (b :: t) [] := by
  rw [slAux.eq_def]
  simp only []
  rw [if_neg (by simp [beq_eq_false_iff_ne, hc]), if_pos hbr]

/-- Splitting a text of the form `l ++ "\n" ++ r` (with `r` non-empty and
every line break inside `l` a plain `"\n"`): the lines of `l` — the first
of them extended by the accumulated prefix — followed by the lines of
`r`. -/
theorem slAux_append (l : List Char)
    (hl : ∀ c ∈ l, isPyLineBreak c = true → c = '\u000a') :
    ∀ (acc r : List Char), r ≠ [] →
    slAux (l ++ '\u000a' :: r) acc =
      prependAcc acc.reverse (pySplitChar '\u000a' l) ++ slAux r [] := by
  induction l with
  | nil =>
    intro acc r hr
    rcases r with _ | ⟨b, t⟩
    · exact absurd rfl hr
    · rw [List.nil_append, slAux_break '\u000a' b t acc (by decide) (by decide)]
      simp [prependAcc, pySplitChar]
  | cons c l' ih =>
    intro acc r hr
    have hne : l' ++ '\u000a' :: r ≠ [] := by simp
    rcases hrest : l' ++ '\u000a' :: r with _ | ⟨b, t⟩
    · exact absurd hrest hne
    · by_cases hc : c = '\u000a'
      · subst hc
        rw [List.cons_append, hrest,
          slAux_break '\u000a' b t acc (by decide) (by decide), ← hrest,
          ih (fun x hx => hl x (List.mem_cons_of_mem _ hx)) [] r hr]
        rcases hsp : pySplitChar '\u000a' l' with _ | ⟨h2, t2⟩
        · exact absurd hsp (pySplitChar_ne_nil _ l')
        · rw [pySplitChar, if_pos (by simp), hsp]
          simp [prependAcc]
      · have hcb : isPyLineBreak c = false := by
          cases hb : isPyLineBreak c
          · rfl
          · exact absurd (hl c (by simp) hb) hc
        rw [List.cons_append, hrest, slAux_step c b t acc hcb, ← hrest,
          ih (fun x hx => hl x (List.mem_cons_of_mem _ hx)) (c :: acc) r hr]
        rcases hsp : pySplitChar '\u000a' l' with _ | ⟨h2, t2⟩
        · exact absurd hsp (pySplitChar_ne_nil _ l')
        · rw [pySplitChar, if_neg (by simp [hc]), hsp]
          show (((c :: acc).reverse ++ h2) :: t2) ++ _ =
            ((acc.reverse ++ (c :: h2)) :: t2) ++ _
          rw [List.reverse_cons, List.append_assoc]
          rfl

end Emilybot

namespace Emilybot

/-! ## Lemmas about `renderPath` and `pyJoin` -/

theorem renderPath_chars {P : Char → Prop} :
    ∀ (comps : List (List Char)) (seps : List Char),
    (∀ comp ∈ comps, ∀ ch ∈ comp, P ch) → (∀ s ∈ seps, P s) →
    ∀ ch ∈ renderPath comps seps, P ch := by
  intro comps
  induction comps with
  | nil => intro seps _ _ ch hch; simp [renderPath] at hch
  | cons comp rest ih =>
    intro seps hc hs ch hch
    cases rest with
    | nil =>
      rw [renderPath.eq_def] at hch
      simp only [] at hch
      exact hc comp (by simp) ch hch
    | cons comp' comps' =>
      cases seps with
      | nil =>
        rw [renderPath.eq_def] at hch
        simp only [] at hch
        exact hc comp (by simp) ch hch
      | cons s seps' =>
        rw [renderPath.eq_def] at hch
        simp only [] at hch
        rcases List.mem_append.mp hch with h | h
        · exact hc comp (by simp) ch h
        · rcases List.mem_cons.mp h with rfl | h
          · exact hs ch (by simp)
          · exact ih seps' (fun x hx => hc x (List.mem_cons_of_mem _ hx))
              (fun x hx => hs x (List.mem_cons_of_mem _ hx)) ch h

theorem renderPath_cons_head (c : Char) (ys : List Char)
    (t : List (List Char)) (seps : List Char) :
    ∃ r, renderPath ((c :: ys) :: t) seps = c :: r := by
  cases t with
  | nil => exact ⟨ys, rfl⟩
  | cons comp' comps' =>
    cases seps with
    | nil => exact ⟨ys, rfl⟩
    | cons s seps' => exact ⟨ys ++ s :: renderPath (comp' :: comps') seps', rfl⟩

theorem pyJoin_cons_head (c : Char) (ys : List Char) (t : List (List Char)) :
    ∃ r, pyJoin '/' ((c :: ys) :: t) = c :: r := by
  cases t with
  | nil => exact ⟨ys, rfl⟩
  | cons y t' => exact ⟨ys ++ '/' :: pyJoin '/' (y :: t'), rfl⟩

theorem pyJoin_getLast? :
    ∀ (comps : List (List Char)) (lastComp : List Char),
    comps.getLast? = some lastComp → (∀ comp ∈ comps, comp ≠ []) →
    (pyJoin '/' comps).getLast? = lastComp.getLast? := by
  intro comps
  induction comps with
  | nil => intro lc h _; simp at h
  | cons x rest ih =>
    intro lc hlast hcne
    cases rest with
    | nil =>
      simp only [List.getLast?_singleton, Option.some.injEq] at hlast
      subst hlast
      rfl
    | cons y t =>
      rw [pyJoin]
      have hlast' : (y :: t).getLast? = some lc := by
        rw [← List.getLast?_cons_cons (a := x)]
        exact hlast
      have hjoin := ih lc hlast' (fun z hz => hcne z (List.mem_cons_of_mem _ hz))
      have hyne : y ≠ [] := hcne y (by simp)
      rcases y with _ | ⟨c, ys⟩
      · exact absurd rfl hyne
      obtain ⟨r, hr⟩ := pyJoin_cons_head c ys t
      rw [List.getLast?_append_of_ne_nil x (by simp)]
      rw [hr, List.getLast?_cons_cons, ← hr, hjoin]

theorem renderPath_getLast? :
    ∀ (comps : List (List Char)) (seps : List Char) (lastComp : List Char),
    comps.getLast? = some lastComp → (∀ comp ∈ comps, comp ≠ []) →
    seps.length + 1 = comps.length →
    (renderPath comps seps).getLast? = lastComp.getLast? := by
  intro comps
  induction comps with
  | nil => intro seps lc h _ _; simp at h
  | cons x rest ih =>
    intro seps lc hlast hcne hlen
    cases rest with
    | nil =>
      simp only [List.getLast?_singleton, Option.some.injEq] at hlast
      subst hlast
      rw [renderPath.eq_def]
    | cons y t =>
      cases seps with
      | nil => simp at hlen
      | cons s seps' =>
        rw [renderPath.eq_def]
        simp only []
        have hlast' : (y :: t).getLast? = some lc := by
          rw [← List.getLast?_cons_cons (a := x)]
          exact hlast
        have hrec := ih seps' lc hlast'
          (fun z hz => hcne z (List.mem_cons_of_mem _ hz)) (by simpa using hlen)
        have hyne : y ≠ [] := hcne y (by simp)
        rcases y with _ | ⟨c, ys⟩
        · exact absurd rfl hyne
        obtain ⟨r, hr⟩ := renderPath_cons_head c ys t seps'
        rw [List.getLast?_append_of_ne_nil x (by simp)]
        rw [hr, List.getLast?_cons_cons, ← hr, hrec]

theorem pyReplaceChar_append (a b : Char) (l₁ l₂ : List Char) :
    pyReplaceChar a b (l₁ ++ l₂) = pyReplaceChar a b l₁ ++ pyReplaceChar a b l₂ :=
  List.map_append _ _ _

theorem pyReplaceChar_cons (a b c : Char) (l : List Char) :
    pyReplaceChar a b (c :: l) =
      (if c == a then b else c) :: pyReplaceChar a b l := rfl

theorem pyReplaceChar_eq_self (a b : Char) (l : List Char)
    (h : ∀ ch ∈ l, ch ≠ a) : pyReplaceChar a b l = l := by
  unfold pyReplaceChar
  calc l.map (fun c => if c == a then b else c)
      = l.map id := List.map_congr_left (fun x hx => by simp [h x hx])
    _ = l := List.map_id l

/-- Replacing `'.'` with `'/'` in a rendered path gives the slash-joined
components, provided the components contain no `'.'` and every separator
is `'.'` or `'/'`. -/
theorem pyReplaceChar_renderPath :
    ∀ (comps : List (List Char)) (seps : List Char),
    (∀ comp ∈ comps, ∀ ch ∈ comp, ch ≠ '.') →
    (∀ s ∈ seps, s = '.' ∨ s = '/') →
    seps.length + 1 = comps.length →
    pyReplaceChar '.' '/' (renderPath comps seps) = pyJoin '/' comps := by
  intro comps
  induction comps with
  | nil => intro seps _ _ hlen; simp at hlen
  | cons x rest ih =>
    intro seps hc hs hlen
    cases rest with
    | nil =>
      rw [renderPath.eq_def]
      cases seps with
      | nil => exact pyReplaceChar_eq_self _ _ x (hc x (by simp))
      | cons s seps' => exact pyReplaceChar_eq_self _ _ x (hc x (by simp))
    | cons y t =>
      cases seps with
      | nil => simp at hlen
      | cons s seps' =>
        rw [renderPath.eq_def]
        simp only []
        rw [pyReplaceChar_append, pyReplaceChar_cons,
          pyReplaceChar_eq_self _ _ x (hc x (by simp)),
          ih seps' (fun z hz => hc z (List.mem_cons_of_mem _ hz))
            (fun z hz => hs z (List.mem_cons_of_mem _ hz)) (by simpa using hlen)]
        have hsep : (if (s == '.') then '/' else s) = '/' := by
          rcases hs s (by simp) with rfl | rfl <;> simp
        rw [hsep, pyJoin]

theorem noDS_pyJoin :
    ∀ (comps : List (List Char)),
    (∀ comp ∈ comps, comp ≠ []) →
    (∀ comp ∈ comps, ∀ ch ∈ comp, ch ≠ '/') →
    noDS (pyJoin '/' comps) = true := by
  intro comps
  induction comps with
  | nil => intro _ _; rfl
  | cons x rest ih =>
    intro hne hsl
    cases rest with
    | nil => exact noDS_of_no_slash x (hsl x (by simp))
    | cons y t =>
      rw [pyJoin]
      apply noDS_append_sep x _ (hsl x (by simp))
        (ih (fun z hz => hne z (List.mem_cons_of_mem _ hz))
          (fun z hz => hsl z (List.mem_cons_of_mem _ hz)))
      intro b hb
      have hyne : y ≠ [] := hne y (by simp)
      rcases y with _ | ⟨c, ys⟩
      · exact absurd rfl hyne
      obtain ⟨r, hr⟩ := pyJoin_cons_head c ys t
      rw [hr] at hb
      simp only [List.head?_cons, Option.some.injEq] at hb
      subst hb
      exact hsl (c :: ys) (by simp) c (by simp)

theorem filterComponents_all_nonempty :
    ∀ (comps : List (List Char)) (hasTrailing : Bool),
    (∀ comp ∈ comps, comp ≠ []) →
    filterComponents hasTrailing comps = comps := by
  intro comps
  induction comps with
  | nil => intro _ _; rfl
  | cons x rest ih =>
    intro ht h
    have hxe : x.isEmpty = false := by
      cases hxe2 : x.isEmpty
      · rfl
      · exact absurd (List.isEmpty_iff.mp hxe2) (h x (by simp))
    cases rest with
    | nil =>
      rw [filterComponents, if_pos (by simp [hxe])]
    | cons y t =>
      rw [filterComponents, if_pos (by simp [hxe]),
        ih ht (fun z hz => h z (List.mem_cons_of_mem _ hz))]
      · rfl
      · simp

theorem validateComponents_ok :
    ∀ (comps : List (List Char)) (ats : Bool),
    (∀ comp ∈ comps, codeComponentOK comp = true) →
    validateComponents ats true comps = .ok () := by
  intro comps
  induction comps with
  | nil => intro _ _; rfl
  | cons x rest ih =>
    intro ats h
    have hx := h x (by simp)
    unfold codeComponentOK at hx
    simp only [Bool.and_eq_true, decide_eq_true_eq] at hx
    obtain ⟨⟨⟨hmin, hmax⟩, hstart⟩, hall⟩ := hx
    rcases x with _ | ⟨c0, xrest⟩
    · simp [startsAlnum] at hstart
    have hc0 : isAsciiAlnum c0 = true := hstart
    have hc0u : c0 ≠ '_' := by
      intro hcu; subst hcu; exact absurd hc0 (by decide)
    have hvp : validPatternMatch (c0 :: xrest) = true := by
      unfold validPatternMatch
      simp only [Bool.or_eq_true]
      left
      rw [Bool.and_eq_true]
      refine ⟨by simp, ?_⟩
      rw [List.all_eq_true]
      intro ch hch
      exact compChar_validPattern ch (List.all_eq_true.mp hall ch hch)
    rw [validateComponents]
    rw [if_neg (by simp)]
    rw [if_neg (by simp [hc0u])]
    rw [if_neg (by simp only [Bool.true_and, decide_eq_true_eq, not_lt]; exact hmin)]
    rw [if_neg (by simp only [Bool.true_and, decide_eq_true_eq, not_lt]; exact hmax)]
    rw [if_neg (by simp [hvp])]
    rw [if_neg (by simp [startsAlnum, hc0])]
    exact ih ats (fun z hz => h z (List.mem_cons_of_mem _ hz))

end Emilybot

namespace Emilybot

/-! ## Further lemmas for the classifier claims -/

theorem getWordRun_all (l : List Char)
    (h : ∀ c ∈ l, isPySpace c = false) : getWordRun l = (l, []) := by
  unfold getWordRun
  have ht : l.takeWhile (fun c => !isPySpace c) = l :=
    takeWhile_eq_self_of_all (fun c hc => by simp [h c hc])
  simp only [ht, List.drop_length]

/-! ## C8: the quoted-word lexer -/

/-- C8: the lexer distinguishes its three error kinds as the source's
exception classes — `nextQuotedWord` repeated on `"a b" c` yields
`["a b", "c"]`; an unterminated quote raises `ExpectedClosingQuote`; a
quote inside an unquoted token raises `UnexpectedQuote`; a non-whitespace
character immediately after a closing quote raises
`InvalidEndOfQuotedString`. -/
theorem c8_quote_lexer_errors :
    parseArguments "\"a b\" c".data = .ok ["a b".data, "c".data] ∧
    getQuotedWordRun "\"unclosed".data =
      .error (.expectedClosingQuote '"') ∧
    getQuotedWordRun "hello\"world".data = .error (.unexpectedQuote '"') ∧
    getQuotedWordRun "\"a\"b".data =
      .error (.invalidEndOfQuotedString 'b') :=
  ⟨rfl, rfl, rfl, rfl⟩

/-! ## C10: the engine never propagates an exception -/

/-- The `try` body never raises the module's own `JSExecutionError`: the
`except JSExecutionError: raise` branch is dead code. -/
theorem executeBody_not_jsError (cfg : ExecutorConfig)
    (o : SubprocessOutcome) (t m : String) :
    executeBody cfg o ≠ .error (.jsExecutionError t m) := by
  intro h
  cases o with
  | jsonDumpsFails m2 => simp [executeBody] at h
  | denoMissing => simp [executeBody] at h
  | timedOut b => simp [executeBody] at h
  | outputUndecodable m2 => simp [executeBody] at h
  | unexpectedError m2 => simp [executeBody] at h
  | exited rc out err js =>
    simp only [executeBody] at h
    split at h
    · split at h <;> simp at h
    · split at h
      · simp at h
      · split at h
        · simp at h
        · split at h <;> simp at h

/-- C10: for every configuration and every subprocess outcome,
`JavaScriptExecutor.execute` returns a `(success, output, value)` triple —
every exception raised inside its `try` is converted to a
`success = False` result — and the body never raises the declared
`JSExecutionError`, so the re-raise branch never fires. -/
theorem c10_execute_never_raises :
    ∀ (cfg : ExecutorConfig) (o : SubprocessOutcome),
    (execute cfg o).isOk = true ∧
    (match executeBody cfg o with
     | .error (.jsExecutionError _ _) => true
     | _ => false) = false := by
  intro cfg o
  constructor
  · show (execute cfg o).isOk = true
    unfold execute
    cases hb : executeBody cfg o with
    | ok r => rfl
    | error e =>
      cases e with
      | fileNotFound => rfl
      | typeOrValueError m => rfl
      | otherException m => rfl
      | jsExecutionError t m => exact absurd hb (executeBody_not_jsError cfg o t m)
  · cases hb : executeBody cfg o with
    | ok r => rfl
    | error e =>
      cases e with
      | fileNotFound => rfl
      | typeOrValueError m => rfl
      | otherException m => rfl
      | jsExecutionError t m => exact absurd hb (executeBody_not_jsError cfg o t m)

/-! ## C6: stderr classification on nonzero exit -/

/-- C6: on a nonzero exit code the engine classifies stderr by scanning
for substrings in priority order — memory markers win over syntax markers,
then syntax markers, else runtime — and the raw (decoded, stripped)
diagnostic is embedded in the user-facing message for the syntax and
runtime kinds, while the memory message is fixed. -/
theorem c6_stderr_classification :
    ∀ (cfg : ExecutorConfig) (rc : Int) (out err : String)
      (js : Except String JsonRecord), rc ≠ 0 →
    ((pyInSub "memory".data (pyLower err.data) ||
        pyInSub "out of memory".data (pyLower err.data)) = true →
      execute cfg (.exited rc out err js) =
        .ok (false, "💾 JavaScript execution exceeded memory limits", none)) ∧
    ((pyInSub "memory".data (pyLower err.data) ||
        pyInSub "out of memory".data (pyLower err.data)) = false →
      (pyInSub "syntaxerror".data (pyLower err.data) ||
        pyInSub "syntax error".data (pyLower err.data)) = true →
      execute cfg (.exited rc out err js) =
        .ok (false, "❌ JavaScript syntax error: " ++ err, none)) ∧
    ((pyInSub "memory".data (pyLower err.data) ||
        pyInSub "out of memory".data (pyLower err.data)) = false →
      (pyInSub "syntaxerror".data (pyLower err.data) ||
        pyInSub "syntax error".data (pyLower err.data)) = false →
      execute cfg (.exited rc out err js) =
        .ok (false, "⚠️ JavaScript runtime error: " ++ err, none)) := by
  intro cfg rc out err js hrc
  have hrc' : (rc == 0) = false := by
    simp [beq_eq_false_iff_ne, hrc]
  refine ⟨?_, ?_, ?_⟩
  · intro hmem
    have hcls : classifyError err = "memory" := by
      unfold classifyError
      rw [if_pos hmem]
    have hbody : executeBody cfg (.exited rc out err js) =
        .ok (false, "💾 JavaScript execution exceeded memory limits", none) := by
      simp only [executeBody]
      rw [if_neg (by simp [hrc'])]
      simp only [hcls]
      rfl
    unfold execute
    rw [hbody]
  · intro hmem hsyn
    have hcls : classifyError err = "syntax" := by
      unfold classifyError
      rw [if_neg (by simp [hmem]), if_pos hsyn]
    have hbody : executeBody cfg (.exited rc out err js) =
        .ok (false, "❌ JavaScript syntax error: " ++ err, none) := by
      simp only [executeBody]
      rw [if_neg (by simp [hrc'])]
      simp only [hcls]
      rfl
    unfold execute
    rw [hbody]
  · intro hmem hsyn
    have hcls : classifyError err = "runtime" := by
      unfold classifyError
      rw [if_neg (by simp [hmem]), if_neg (by simp [hsyn])]
    have hbody : executeBody cfg (.exited rc out err js) =
        .ok (false, "⚠️ JavaScript runtime error: " ++ err, none) := by
      simp only [executeBody]
      rw [if_neg (by simp [hrc'])]
      simp only [hcls]
      rfl
    unfold execute
    rw [hbody]

/-- C6 witness: the theorem applied at concrete stderr texts of each
kind. -/
theorem c6_stderr_classification_witness :
    execute ⟨"5.0", "deno"⟩
        (.exited 1 "" "SyntaxError: out of memory" (.ok ⟨none, none⟩)) =
      .ok (false, "💾 JavaScript execution exceeded memory limits", none) ∧
    execute ⟨"5.0", "deno"⟩
        (.exited 1 "" "SyntaxError: unexpected token" (.ok ⟨none, none⟩)) =
      .ok (false,
        "❌ JavaScript syntax error: SyntaxError: unexpected token", none) ∧
    execute ⟨"5.0", "deno"⟩
        (.exited 1 "" "ReferenceError: x is not defined" (.ok ⟨none, none⟩)) =
      .ok (false,
        "⚠️ JavaScript runtime error: ReferenceError: x is not defined",
        none) :=
  ⟨(c6_stderr_classification ⟨"5.0", "deno"⟩ 1 ""
      "SyntaxError: out of memory" (.ok ⟨none, none⟩) (by decide)).1
      (by decide),
   (c6_stderr_classification ⟨"5.0", "deno"⟩ 1 ""
      "SyntaxError: unexpected token" (.ok ⟨none, none⟩) (by decide)).2.1
      (by decide) (by decide),
   (c6_stderr_classification ⟨"5.0", "deno"⟩ 1 ""
      "ReferenceError: x is not defined" (.ok ⟨none, none⟩) (by decide)).2.2
      (by decide) (by decide)⟩

end Emilybot

namespace Emilybot

/-! ## C4: timeout handling -/

/-- C4 counterexample: the legacy executor
(`execute/javascript_executor.py`, the one `run_code` instantiates),
configured with a 5-second timeout, reports the hard-coded message
`"(1 second limit)"`, which does not include the configured limit value
`5.0`. -/
theorem c4_timeout_counterexample :
    legacyExecute ⟨"5.0", "deno"⟩ (.timedOut false) =
      .ok (false, "⏱️ JavaScript execution timed out (1 second limit)",
        none) ∧
    pyInSub "5.0".data
      "⏱️ JavaScript execution timed out (1 second limit)".data = false :=
  ⟨rfl, rfl⟩

/-- C4 amended: on timeout both executors return `success = False` with
the timeout message and no value; the current engine
(`execute/executor.py`) embeds the configured limit in the message, while
the legacy engine (`execute/javascript_executor.py`) always says
`"1 second limit"`; on that path the spawned process is killed and reaped
(or was already dead), so no running process remains. -/
theorem c4_timeout_amended :
    ∀ (cfg : ExecutorConfig) (alreadyExited : Bool),
    execute cfg (.timedOut alreadyExited) =
      .ok (false,
        "⏱️ JavaScript execution timed out (" ++ cfg.timeoutStr ++
          "s limit)", none) ∧
    pyInSub cfg.timeoutStr.data
      ("⏱️ JavaScript execution timed out (" ++ cfg.timeoutStr ++
        "s limit)").data = true ∧
    legacyExecute cfg (.timedOut alreadyExited) =
      .ok (false, "⏱️ JavaScript execution timed out (1 second limit)",
        none) ∧
    (∀ st : ProcState, timeoutCleanup st = .dead) := by
  intro cfg b
  refine ⟨rfl, ?_, rfl, ?_⟩
  · rw [String.data_append, String.data_append, List.append_assoc]
    exact pyInSub_sandwich cfg.timeoutStr.data
      "⏱️ JavaScript execution timed out (".data "s limit)".data
  · intro st
    cases st <;> rfl

/-! ## C2: classification of non-prefixed and malformed input -/

/-- C2 counterexample: `parse_command` on a string that does not start
with the prefix raises `ValueError` — it does not return an "Unhandled"
value, and the classifier is not exception-free. -/
theorem c2_unhandled_counterexample :
    parseCommand "foo" =
      .error (.valueError "Message content must start with '$'") := rfl

/-- C2 amended: classification signals "not handled" by raising — for
every string not starting with `"$"`, `parse_command` raises `ValueError`
(callers catch it); the bare prefix and a whitespace-only remainder also
raise `ValueError`, and an unclosed quote among the arguments raises the
lexer's `ExpectedClosingQuoteError`, which propagates past the
`except ValueError` of the fall-through. -/
theorem c2_unhandled_amended :
    (∀ s : String, List.isPrefixOf ['$'] s.data = false →
      parseCommand s =
        .error (.valueError "Message content must start with '$'")) ∧
    parseCommand "$" = .error (.valueError "No content found after '$'") ∧
    parseCommand "$   " =
      .error (.valueError "No content found after '$'") ∧
    parseCommand "$foo \"bar" =
      .error (.argParse (.expectedClosingQuote '"')) := by
  refine ⟨?_, rfl, rfl, rfl⟩
  intro s h
  simp [parseCommand, h]

/-- C2 witness: the amended theorem applied at a concrete non-prefixed
string. -/
theorem c2_unhandled_witness :
    parseCommand "xyz" =
      .error (.valueError "Message content must start with '$'") :=
  c2_unhandled_amended.1 "xyz" rfl

/-! ## C3: the script-snippet fallback -/

/-- C3 counterexample: in the fall-through case the snippet body is the
*entire* message, prefix included — `parse_command("$test;")` yields
`JS(code="$test;")`, not `JS(code="test;")`. -/
theorem c3_snippet_counterexample :
    parseCommand "$test;" = .ok (.js "$test;") ∧
    ("$test;" : String) ≠ "test;" := ⟨rfl, by decide⟩

/-- C3 amended: when the remainder after `"$"` begins with whitespace and
is not blank, the classifier returns a script snippet whose code is the
remainder stripped of leading *and trailing* whitespace (never containing
the prefix); in particular `classify("$ console.log(1+1)")` is
`ScriptSnippet{code: "console.log(1+1)"}`.  When the remainder does not
begin with whitespace and no other form matches, the snippet code is the
entire message including the prefix. -/
theorem c3_snippet_amended :
    (∀ (c : Char) (rest : List Char), isPySpace c = true →
      pyStripL (c :: rest) ≠ [] →
      parseCommand ⟨'$' :: c :: rest⟩ = .ok (.js ⟨pyStripL (c :: rest)⟩)) ∧
    parseCommand "$ console.log(1+1)" = .ok (.js "console.log(1+1)") ∧
    parseCommand "$x + y" = .ok (.js "$x + y") := by
  refine ⟨?_, rfl, rfl⟩
  intro c rest hsp hne
  simp only [parseCommand, parseJsCode]
  rw [if_neg (by simp [List.isPrefixOf])]
  rw [if_neg (by simp)]
  simp only [List.drop_succ_cons, List.drop_zero]
  rw [if_pos (by simp [hsp])]
  rw [if_neg (by simpa [List.isEmpty_iff] using hne)]

/-- C3 witness: the amended theorem applied at a concrete
whitespace-led remainder. -/
theorem c3_snippet_witness : parseCommand "$ 2 + 2" = .ok (.js "2 + 2") := by
  have h := c3_snippet_amended.1 ' ' "2 + 2".data rfl (by decide)
  exact h

end Emilybot

namespace Emilybot

/-! ## C7 and C5: code-fence stripping -/

theorem prependAcc_nil (l : List (List Char)) (h : l ≠ []) :
    prependAcc [] l = l := by
  cases l with
  | nil => exact absurd rfl h
  | cons x t => simp [prependAcc]

theorem pySplitChar_pyJoin :
    ∀ (comps : List (List Char)), comps ≠ [] →
    (∀ comp ∈ comps, ∀ ch ∈ comp, ch ≠ '/') →
    pySplitChar '/' (pyJoin '/' comps) = comps := by
  intro comps
  induction comps with
  | nil => intro h _; exact absurd rfl h
  | cons x rest ih =>
    intro _ hns
    cases rest with
    | nil => exact pySplitChar_no_sep '/' x (hns x (by simp))
    | cons y t =>
      rw [pyJoin, pySplitChar_append_sep '/' x _ (hns x (by simp)),
        ih (by simp) (fun z hz => hns z (List.mem_cons_of_mem _ hz))]

/-- Splitting a three-part fenced body into its lines: the first line,
the lines of the middle, and the closing fence line. -/
theorem splitlines_fence (first : List Char) (c : String)
    (hne : first ≠ [])
    (hnb : ∀ ch ∈ first, isPyLineBreak ch = false)
    (honly : ∀ ch ∈ c.data, isPyLineBreak ch = true → ch = '\u000a') :
    pySplitlines (first ++ '\u000a' :: (c.data ++ '\u000a' :: ['`', '`', '`'])) =
      first :: (pySplitChar '\u000a' c.data ++ [['`', '`', '`']]) := by
  rcases first with _ | ⟨f0, ft⟩
  · exact absurd rfl hne
  have hstart : pySplitlines ((f0 :: ft) ++ '\u000a' ::
      (c.data ++ '\u000a' :: ['`', '`', '`'])) =
      slAux ((f0 :: ft) ++ '\u000a' :: (c.data ++ '\u000a' :: ['`', '`', '`'])) [] := rfl
  rw [hstart]
  rw [slAux_append (f0 :: ft)
    (fun x hx hbx => absurd (hnb x hx) (by simp [hbx])) []
    (c.data ++ '\u000a' :: ['`', '`', '`']) (by simp)]
  rw [slAux_append c.data honly [] ['`', '`', '`'] (by simp)]
  have hsp1 : pySplitChar '\u000a' (f0 :: ft) = [f0 :: ft] :=
    pySplitChar_no_sep '\u000a' (f0 :: ft)
      (fun x hx hxe => absurd (hnb x hx) (by subst hxe; decide))
  rw [hsp1]
  have hlast : slAux ['`', '`', '`'] [] = [['`', '`', '`']] := rfl
  rw [hlast]
  rcases hsp2 : pySplitChar '\u000a' c.data with _ | ⟨h2, t2⟩
  · exact absurd hsp2 (pySplitChar_ne_nil _ _)
  · simp [prependAcc]

end Emilybot

namespace Emilybot

/-- Core of `extract_js_code` on a body of shape
`first-line ++ "\n" ++ middle ++ "\n" ++ "```"` (the first line a fence
candidate, the middle break-clean): the closing fence line is popped, the
first line is popped exactly when `_is_code_block_opener` accepts it, and
the rest is joined and stripped. -/
theorem extractJsCode_fence_lines (first : List Char) (c : String)
    (hpre : "```".data.isPrefixOf first = true)
    (hnb : ∀ ch ∈ first, isPyLineBreak ch = false)
    (hstrip1 : pyStripL first = first)
    (honly : ∀ ch ∈ c.data, isPyLineBreak ch = true → ch = '\u000a') :
    extractJsCode ⟨first ++ '\u000a' :: (c.data ++ '\u000a' :: ['`', '`', '`'])⟩ =
      ⟨pyStripL (pyJoin '\u000a'
        (if isCodeBlockOpener first then pySplitChar '\u000a' c.data
         else first :: pySplitChar '\u000a' c.data))⟩ := by
  obtain ⟨ftail, hft⟩ : ∃ t, first = '`' :: '`' :: '`' :: t := by
    obtain ⟨t, ht⟩ := List.isPrefixOf_iff_prefix.mp hpre
    exact ⟨t, ht.symm⟩
  have hfne : first ≠ [] := by rw [hft]; simp
  have hD2 : first ++ '\u000a' :: (c.data ++ '\u000a' :: ['`', '`', '`']) =
      first ++ (('\u000a' :: c.data) ++ ('\u000a' :: ['`', '`', '`'])) := by
    rw [List.cons_append]
  have hlastD :
      (first ++ '\u000a' :: (c.data ++ '\u000a' :: ['`', '`', '`'])).getLast? =
        some '`' := by
    rw [hD2, List.getLast?_append_of_ne_nil first (by simp),
      List.getLast?_append_of_ne_nil _ (by simp)]
    rfl
  have hstripD :
      pyStripL (first ++ '\u000a' :: (c.data ++ '\u000a' :: ['`', '`', '`'])) =
        first ++ '\u000a' :: (c.data ++ '\u000a' :: ['`', '`', '`']) := by
    apply pyStripL_eq_self_of_ends
    · intro x hx
      rw [hft] at hx
      simp only [List.cons_append, List.head?_cons, Option.some.injEq] at hx
      subst hx
      decide
    · intro x hx
      rw [hlastD] at hx
      simp only [Option.some.injEq] at hx
      subst hx
      decide
  have hnl : pyInSub ['\u000a']
      (first ++ '\u000a' :: (c.data ++ '\u000a' :: ['`', '`', '`'])) = true := by
    have h := pyInSub_sandwich ['\u000a'] first
      (c.data ++ '\u000a' :: ['`', '`', '`'])
    simpa using h
  have hlines := splitlines_fence first c hfne hnb honly
  show extractJsCode
      ⟨first ++ '\u000a' :: (c.data ++ '\u000a' :: ['`', '`', '`'])⟩ = _
  unfold extractJsCode
  have hstripD' : pyStripL (String.mk
      (first ++ '\u000a' :: (c.data ++ '\u000a' :: ['`', '`', '`']))).data =
      first ++ '\u000a' :: (c.data ++ '\u000a' :: ['`', '`', '`']) := hstripD
  rw [hstripD']
  rw [if_neg (by rw [hft]; simp)]
  rw [if_neg (by simp [hnl])]
  rw [hlines]
  simp only []
  by_cases hop : isCodeBlockOpener first = true
  · rw [if_pos hop, if_pos hop]
    rw [List.getLast?_concat]
    simp only []
    rw [if_pos (show (pyStripL ['`', '`', '`'] == "```".data) = true from rfl)]
    rw [List.dropLast_concat]
    rw [if_neg (by
      rcases hs : pySplitChar '\u000a' c.data with _ | ⟨a, b⟩
      · exact absurd hs (pySplitChar_ne_nil _ _)
      · simp)]
  · rw [if_neg hop, if_neg hop]
    have hshape : first :: (pySplitChar '\u000a' c.data ++ [['`', '`', '`']]) =
        (first :: pySplitChar '\u000a' c.data) ++ [['`', '`', '`']] := by
      simp
    rw [hshape, List.getLast?_concat]
    simp only []
    rw [if_pos (show (pyStripL ['`', '`', '`'] == "```".data) = true from rfl)]
    rw [List.dropLast_concat]
    rw [if_neg (by simp)]

end Emilybot

namespace Emilybot

/-- C7 counterexample: `c = " x"` contains no fence markers, yet the
round trip returns `"x"`, not `" x"` — the final `.strip()` of
`extract_js_code` removes the interior's surrounding whitespace. -/
theorem c7_roundtrip_counterexample :
    pyInSub "```".data " x".data = false ∧
    extractJsCode (fenceWrap " x") = "x" ∧
    ("x" : String) ≠ " x" := ⟨rfl, rfl, by decide⟩

/-- C7 amended: for every code string `c` containing no fence markers,
whose only line-break character is `"\n"`, and with no leading or
trailing whitespace (`c.strip() == c`), wrapping in a bare fence and
stripping gives back exactly `c`. -/
theorem c7_fence_roundtrip (c : String)
    (hnf : pyInSub "```".data c.data = false)
    (honly : ∀ ch ∈ c.data, isPyLineBreak ch = true → ch = '\u000a')
    (hstrip : pyStrip c = c) :
    extractJsCode (fenceWrap c) = c := by
  have hdata : fenceWrap c =
      ⟨"```".data ++ '\u000a' :: (c.data ++ '\u000a' :: ['`', '`', '`'])⟩ := by
    show "```\u000a" ++ (c ++ "\u000a```") = _
    apply String.ext
    rw [String.data_append, String.data_append]
    rfl
  rw [hdata]
  rw [extractJsCode_fence_lines "```".data c rfl (by decide) rfl honly]
  rw [if_pos (show isCodeBlockOpener "```".data = true from rfl)]
  rw [pyJoin_pySplitChar]
  exact hstrip

/-- C7 witness: the amended round trip applied at a concrete code
string. -/
theorem c7_fence_roundtrip_witness :
    extractJsCode (fenceWrap "foo(1)") = "foo(1)" :=
  c7_fence_roundtrip "foo(1)" rfl (by decide) rfl

/-- C5 counterexample: an opening line with a tag plus extra words is not
treated as a fence, yet the body is *not* left untouched — the bare
closing fence line is still removed. -/
theorem c5_fence_counterexample :
    extractJsCode "```js foo\u000acode\u000a```" = "```js foo\u000acode" ∧
    extractJsCode "```js foo\u000acode\u000a```" ≠
      "```js foo\u000acode\u000a```" := ⟨rfl, by decide⟩

/-- C5 amended, part for clean fences: a first line that is ``` plus an
optional space-free tag is an opener and is removed together with the
closing fence, and the interior comes back stripped of surrounding
whitespace. -/
theorem c5_fence_stripping_amended :
    (∀ (tag : List Char) (c : String),
      (∀ ch ∈ tag, isPySpace ch = false) →
      (∀ ch ∈ tag, isPyLineBreak ch = false) →
      (∀ ch ∈ c.data, isPyLineBreak ch = true → ch = '\u000a') →
      pyStrip c = c →
      extractJsCode ⟨("```".data ++ tag) ++ '\u000a' ::
        (c.data ++ '\u000a' :: ['`', '`', '`'])⟩ = c) ∧
    (∀ (first : List Char) (c : String),
      "```".data.isPrefixOf first = true →
      (∀ ch ∈ first, isPyLineBreak ch = false) →
      pyStripL first = first →
      isCodeBlockOpener first = false →
      (∀ ch ∈ c.data, isPyLineBreak ch = true → ch = '\u000a') →
      pyStrip c = c → c ≠ "" →
      extractJsCode ⟨first ++ '\u000a' ::
        (c.data ++ '\u000a' :: ['`', '`', '`'])⟩ =
        ⟨first ++ '\u000a' :: c.data⟩) := by
  constructor
  · intro tag c hts htb honly hstrip
    have hall : ∀ ch ∈ "```".data ++ tag, isPySpace ch = false := by
      intro ch hch
      rcases List.mem_append.mp hch with h | h
      · rw [show "```".data = ['`', '`', '`'] from rfl] at h
        fin_cases h <;> decide
      · exact hts ch h
    have hallb : ∀ ch ∈ "```".data ++ tag, isPyLineBreak ch = false := by
      intro ch hch
      rcases List.mem_append.mp hch with h | h
      · rw [show "```".data = ['`', '`', '`'] from rfl] at h
        fin_cases h <;> decide
      · exact htb ch h
    have hsl : pyStripL ("```".data ++ tag) = "```".data ++ tag :=
      pyStripL_eq_self_of_all hall
    have hopener : isCodeBlockOpener ("```".data ++ tag) = true := by
      rw [isCodeBlockOpener]
      simp only [hsl]
      rw [if_neg (by rw [isPrefixOf_append_self]; decide)]
      have hdrop : List.drop 3 ("```".data ++ tag) = tag := rfl
      simp only [hdrop, pyStripL_eq_self_of_all hts]
      cases tag with
      | nil => rfl
      | cons a t =>
        rw [if_neg (by simp)]
        have hsp : ' ' ∉ a :: t := by
          intro hmem
          have := hts ' ' hmem
          exact absurd this (by decide)
        simp [pyInSub_singleton_false ' ' (a :: t) hsp]
    rw [extractJsCode_fence_lines ("```".data ++ tag) c
      (isPrefixOf_append_self _ _) hallb hsl honly]
    rw [if_pos hopener, pyJoin_pySplitChar]
    exact hstrip
  · intro first c hpre hnb hstrip1 hop honly hstrip hcne
    rw [extractJsCode_fence_lines first c hpre hnb hstrip1 honly]
    rw [if_neg (by simp [hop])]
    have hcd : pyStripL c.data = c.data := congrArg String.data hstrip
    have hcdne : c.data ≠ [] := by
      intro h
      exact hcne (String.ext h)
    rcases hsp : pySplitChar '\u000a' c.data with _ | ⟨h2, t2⟩
    · exact absurd hsp (pySplitChar_ne_nil _ _)
    have hjoin : pyJoin '\u000a' (first :: h2 :: t2) =
        first ++ '\u000a' :: c.data := by
      rw [pyJoin, ← hsp, pyJoin_pySplitChar]
    rw [hjoin]
    have hends := ends_of_pyStripL_eq_self hcd
    obtain ⟨ftail, hft⟩ : ∃ t, first = '`' :: '`' :: '`' :: t := by
      obtain ⟨t, ht⟩ := List.isPrefixOf_iff_prefix.mp hpre
      exact ⟨t, ht.symm⟩
    have hstripped : pyStripL (first ++ '\u000a' :: c.data) =
        first ++ '\u000a' :: c.data := by
      apply pyStripL_eq_self_of_ends
      · intro x hx
        rw [hft] at hx
        simp only [List.cons_append, List.head?_cons, Option.some.injEq] at hx
        subst hx
        decide
      · intro x hx
        rw [List.getLast?_append_of_ne_nil first (by simp)] at hx
        rcases hcdata : c.data with _ | ⟨d0, dt⟩
        · exact absurd hcdata hcdne
        · rw [hcdata, List.getLast?_cons_cons, ← hcdata] at hx
          exact hends.2 x hx
    rw [hstripped]

/-- C5 witness: both parts of the amended theorem applied at concrete
inputs: a tagged fence around `foo(1)` yields `foo(1)`, while a first
line with extra words keeps that first line but loses the closing
fence. -/
theorem c5_fence_stripping_amended_witness :
    extractJsCode ⟨("```".data ++ "js".data) ++ '\u000a' ::
      ("foo(1)".data ++ '\u000a' :: ['`', '`', '`'])⟩ = "foo(1)" ∧
    extractJsCode ⟨"```js extra".data ++ '\u000a' ::
      ("code".data ++ '\u000a' :: ['`', '`', '`'])⟩ =
      ⟨"```js extra".data ++ '\u000a' :: "code".data⟩ :=
  ⟨c5_fence_stripping_amended.1 "js".data "foo(1)" (by decide) (by decide)
    (by decide) rfl,
   c5_fence_stripping_amended.2 "```js extra".data "code" rfl (by decide)
    rfl rfl (by decide) rfl (by decide)⟩

end Emilybot

namespace Emilybot

/-! ## C9: the list-children parent -/

theorem lcCheck_some_head (a : Char) (rest : List Char) (n : Nat)
    (g : List Char) (h : lcCheck a rest n = some g) :
    ∃ t, g = a :: t := by
  unfold lcCheck at h
  split at h
  · split at h
    · exact ⟨_, (Option.some.inj h).symm⟩
    · exact absurd h (by simp)
  · exact absurd h (by simp)

theorem lcTry_some_head (a : Char) (rest : List Char) (g : List Char) :
    ∀ n, lcTry a rest n = some g → ∃ t, g = a :: t := by
  intro n
  induction n with
  | zero => exact fun h => lcCheck_some_head a rest 0 g h
  | succ n ih =>
    intro h
    unfold lcTry at h
    split at h
    · rename_i g2 heq
      exact lcCheck_some_head a rest (n + 1) g (heq.trans h)
    · exact ih h

theorem lcGroup1_some_head (s g : List Char) (h : lcGroup1 s = some g) :
    ∃ a t, g = a :: t ∧ isLcA a = true := by
  unfold lcGroup1 at h
  split at h
  · exact absurd h (by simp)
  · rename_i a rest
    by_cases ha : isLcA a = true
    · rw [if_pos ha] at h
      obtain ⟨t, ht⟩ := lcTry_some_head a rest g _ h
      exact ⟨a, t, ht, ha⟩
    · rw [if_neg ha] at h
      exact absurd h (by simp)

/-- C9 counterexample: `"$foo//."` classifies as a list-children request
whose parent `"foo//"` has a trailing slash and a doubled slash, and
`"$foo/."` gives parent `"foo/"` with a trailing slash — the capture
group `[a-zA-Z0-9_][a-zA-Z0-9_/\-]*[a-zA-Z0-9_/]` may end in slashes. -/
theorem c9_listchildren_counterexample :
    parseCommand "$foo//." = .ok (.listChildren "foo//") ∧
    "foo//".data.getLast? = some '/' ∧
    pyInSub ['/', '/'] "foo//".data = true ∧
    parseCommand "$foo/." = .ok (.listChildren "foo/") :=
  ⟨rfl, rfl, rfl, rfl⟩

/-- C9 amended: what does hold of every list-children parent the
classifier produces: it is non-empty and its first character is in
`[a-zA-Z0-9_]`, so in particular there is no leading slash.  Trailing and
doubled slashes are possible (see the counterexample). -/
theorem c9_listchildren_parent_amended (s : String) (p : String)
    (h : parseCommand s = .ok (.listChildren p)) :
    p.data ≠ [] ∧ ∀ c, p.data.head? = some c → isLcA c = true ∧ c ≠ '/' := by
  simp only [parseCommand] at h
  split at h
  · exact absurd h (by simp)
  split at h
  · exact absurd h (by simp)
  split at h
  · split at h
    · exact absurd h (by simp)
    · exact absurd h (by simp)
  split at h
  · exact absurd h (by simp)
  split at h
  · unfold parseListChildren at h
    split at h
    · rename_i g heq
      simp only [Except.ok.injEq, ParsedMsg.listChildren.injEq] at h
      subst h
      obtain ⟨a, t, hgt, ha⟩ := lcGroup1_some_head _ g heq
      subst hgt
      refine ⟨by simp, ?_⟩
      intro c hc
      simp only [List.head?_cons, Option.some.injEq] at hc
      subst hc
      refine ⟨ha, ?_⟩
      intro hslash
      subst hslash
      exact absurd ha (by decide)
    · exact absurd h (by simp)
  split at h
  · exact absurd h (by simp)
  split at h
  · exact absurd h (by simp)
  split at h
  · exact absurd h (by simp)
  · split at h
    · exact absurd h (by simp)
    · exact absurd h (by simp)
    · exact absurd h (by simp)

/-- C9 witness: the amended invariant at the spec's own example
`"$foo."`. -/
theorem c9_listchildren_parent_witness :
    ("foo" : String).data ≠ [] ∧
    ∀ c, ("foo" : String).data.head? = some c → isLcA c = true ∧ c ≠ '/' :=
  c9_listchildren_parent_amended "$foo." "foo" rfl

end Emilybot

namespace Emilybot

/-! ## C1: classification of valid command paths -/

theorem codeComponentOK_ne_nil (comp : List Char)
    (h : codeComponentOK comp = true) : comp ≠ [] := by
  intro he
  rw [he] at h
  exact absurd h (by decide)

theorem codeComponentOK_chars (comp : List Char)
    (h : codeComponentOK comp = true) :
    ∀ ch ∈ comp, (isAsciiAlnum ch || ch == '_' || ch == '-') = true := by
  intro ch hch
  simp only [codeComponentOK, Bool.and_eq_true, List.all_eq_true] at h
  exact h.2 ch hch

theorem getLast?_drop_ne_nil :
    ∀ (n : Nat) (l : List Char), l.drop n ≠ [] →
    (l.drop n).getLast? = l.getLast? := by
  intro n
  induction n with
  | zero => intro l _; rfl
  | succ n ih =>
    intro l h
    cases l with
    | nil => simp at h
    | cons a t =>
      rw [List.drop_succ_cons] at h ⊢
      have ht : t ≠ [] := by
        intro he
        rw [he, List.drop_nil] at h
        exact h rfl
      rw [ih t h]
      cases t with
      | nil => exact absurd rfl ht
      | cons b t2 => rw [List.getLast?_cons_cons]

theorem lcCheck_none_of_last (a : Char) (rest : List Char) (n : Nat) (lc : Char)
    (hlast : (a :: rest).getLast? = some lc) (hlc : isDotSlash lc = false) :
    lcCheck a rest n = none := by
  unfold lcCheck
  rcases hd : rest.drop n with _ | ⟨c, ds⟩
  · rfl
  · rcases ds with _ | ⟨d, ds2⟩
    · simp only []
      rw [if_neg (by simp)]
    · simp only []
      rw [if_neg ?hcond]
      case hcond =>
        intro hcon
        have hdl : (c :: d :: ds2 : List Char).getLast? = some lc := by
          have h1 : (a :: rest).drop (n + 1) = c :: d :: ds2 := by
            rw [List.drop_succ_cons, hd]
          rw [← h1, getLast?_drop_ne_nil (n + 1) (a :: rest) (by rw [h1]; simp),
            hlast]
        rw [List.getLast?_cons_cons] at hdl
        have hmem : lc ∈ d :: ds2 := by
          have hne2 : (d :: ds2 : List Char) ≠ [] := by simp
          rw [List.getLast?_eq_getLast _ hne2] at hdl
          have hm := List.getLast_mem hne2
          rwa [Option.some.inj hdl] at hm
        simp only [Bool.and_eq_true, List.all_eq_true] at hcon
        have hds := hcon.2 lc hmem
        rw [hlc] at hds
        exact absurd hds (by decide)

theorem lcTry_none_of_last (a : Char) (rest : List Char) (lc : Char)
    (hlast : (a :: rest).getLast? = some lc) (hlc : isDotSlash lc = false) :
    ∀ n, lcTry a rest n = none := by
  intro n
  induction n with
  | zero => exact lcCheck_none_of_last a rest 0 lc hlast hlc
  | succ n ih =>
    unfold lcTry
    rw [lcCheck_none_of_last a rest (n + 1) lc hlast hlc]
    exact ih

theorem lcGroup1_none_of_last (s : List Char) (lc : Char)
    (hlast : s.getLast? = some lc) (hlc : isDotSlash lc = false) :
    lcGroup1 s = none := by
  unfold lcGroup1
  cases s with
  | nil => rfl
  | cons a rest =>
    simp only []
    by_cases ha : isLcA a = true
    · rw [if_pos ha]
      exact lcTry_none_of_last a rest lc hlast hlc _
    · rw [if_neg ha]

theorem validatePath_renderPath (comps : List (List Char)) (seps : List Char)
    (hne : comps ≠ [])
    (hcomp : ∀ comp ∈ comps, codeComponentOK comp = true)
    (hsep : ∀ s ∈ seps, s = '.' ∨ s = '/')
    (hlen : seps.length + 1 = comps.length) :
    validatePath (renderPath comps seps) true true false true =
      Except.ok (pyJoin '/' comps) := by
  have hcne : ∀ comp ∈ comps, comp ≠ [] :=
    fun comp hc => codeComponentOK_ne_nil comp (hcomp comp hc)
  have hchars : ∀ comp ∈ comps, ∀ ch ∈ comp,
      (isAsciiAlnum ch || ch == '_' || ch == '-') = true :=
    fun comp hc => codeComponentOK_chars comp (hcomp comp hc)
  obtain ⟨c0, r0, hshape⟩ : ∃ c r, renderPath comps seps = c :: r := by
    rcases comps with _ | ⟨x, rest⟩
    · exact absurd rfl hne
    rcases x with _ | ⟨c, ys⟩
    · exact absurd rfl (hcne [] (by simp))
    obtain ⟨r, hr⟩ := renderPath_cons_head c ys rest seps
    exact ⟨c, r, hr⟩
  have hpe : (renderPath comps seps).isEmpty = false := by rw [hshape]; rfl
  have hrep : pyReplaceChar '.' '/' (renderPath comps seps) = pyJoin '/' comps :=
    pyReplaceChar_renderPath comps seps
      (fun comp hc ch hch => compChar_ne_dot ch (hchars comp hc ch hch)) hsep hlen
  have hdsl : pyInSub ['/', '/'] (pyJoin '/' comps) = false :=
    pyInSub_dslash_false _ (noDS_pyJoin comps hcne
      (fun comp hc ch hch => compChar_ne_slash ch (hchars comp hc ch hch)))
  have hsplit : pySplitChar '/' (pyJoin '/' comps) = comps :=
    pySplitChar_pyJoin comps hne
      (fun comp hc ch hch => compChar_ne_slash ch (hchars comp hc ch hch))
  have hnotrail : ((pyJoin '/' comps).getLast? == some '/') = false := by
    have hlmem : comps.getLast hne ∈ comps := List.getLast_mem hne
    have hlnil : comps.getLast hne ≠ [] := hcne _ hlmem
    rw [pyJoin_getLast? comps _ (List.getLast?_eq_getLast _ hne) hcne,
      List.getLast?_eq_getLast _ hlnil]
    have hlne : (comps.getLast hne).getLast hlnil ≠ '/' :=
      compChar_ne_slash _ (hchars _ hlmem _ (List.getLast_mem hlnil))
    simp [hlne]
  simp only [validatePath, hpe, hrep]
  have hdash : (if false = true then pyReplaceChar '-' '_' (pyJoin '/' comps)
      else pyJoin '/' comps) = pyJoin '/' comps := rfl
  rw [show (if True then pyJoin '/' comps else renderPath comps seps) =
    pyJoin '/' comps from if_pos trivial]
  rw [hdash, if_neg (show ¬(false = true) from by decide),
    if_neg (by rw [hdsl]; decide), hsplit, hnotrail,
    filterComponents_all_nonempty comps false hcne,
    validateComponents_ok comps true hcomp]

end Emilybot

namespace Emilybot

theorem parseCommandInvocation_renderPath (comps : List (List Char))
    (seps : List Char) (hne : comps ≠ [])
    (hcomp : ∀ comp ∈ comps, codeComponentOK comp = true)
    (hsep : ∀ s ∈ seps, s = '.' ∨ s = '/')
    (hlen : seps.length + 1 = comps.length) :
    parseCommandInvocation ('$' :: renderPath comps seps) ['$'] =
      Except.ok (⟨pyJoin '/' comps⟩, []) := by
  have hcne : ∀ comp ∈ comps, comp ≠ [] :=
    fun comp hc => codeComponentOK_ne_nil comp (hcomp comp hc)
  have hchars : ∀ comp ∈ comps, ∀ ch ∈ comp,
      (isAsciiAlnum ch || ch == '_' || ch == '-') = true :=
    fun comp hc => codeComponentOK_chars comp (hcomp comp hc)
  have hallns : ∀ ch ∈ renderPath comps seps, isPySpace ch = false :=
    renderPath_chars comps seps
      (fun comp hc ch hch => not_pySpace_of_compChar ch (hchars comp hc ch hch))
      (fun s hs => not_pySpace_of_sep s (hsep s hs))
  obtain ⟨c0, r0, hshape⟩ : ∃ c r, renderPath comps seps = c :: r := by
    rcases comps with _ | ⟨x, rest⟩
    · exact absurd rfl hne
    rcases x with _ | ⟨c, ys⟩
    · exact absurd rfl (hcne [] (by simp))
    obtain ⟨r, hr⟩ := renderPath_cons_head c ys rest seps
    exact ⟨c, r, hr⟩
  have hpe : (renderPath comps seps).isEmpty = false := by rw [hshape]; rfl
  have hdrop1 : ('$' :: renderPath comps seps).drop (List.length ['$']) =
      renderPath comps seps := rfl
  have hstripP : pyStripL (renderPath comps seps) = renderPath comps seps :=
    pyStripL_eq_self_of_all hallns
  have hpa : parseArguments ([] : List Char) = Except.ok [] := rfl
  have hpref : List.isPrefixOf ['$'] ('$' :: renderPath comps seps) = true :=
    List.isPrefixOf_iff_prefix.mpr ⟨renderPath comps seps, rfl⟩
  rw [parseCommandInvocation]
  rw [if_neg (by rw [hpref]; decide)]
  simp only [hdrop1, hstripP, hpe, getWordRun_all _ hallns,
    validatePath_renderPath comps seps hne hcomp hsep hlen, hpa, List.map_nil]
  rw [if_neg (show ¬(false = true) from by decide),
    if_neg (show ¬(false = true) from by decide)]
end Emilybot

namespace Emilybot

/-- C1 counterexample: three paths valid under the spec's name grammar
that the classifier does not turn into command invocations: a one-letter
name (below `MIN_LENGTH`), a name starting with an underscore, and a
101-character name (above `MAX_LENGTH`) all fall through to JavaScript. -/
theorem c1_valid_path_counterexample :
    specGrammarPathOk "a" = true ∧
    parseCommand "$a" = .ok (.js "$a") ∧
    specGrammarPathOk "_ab" = true ∧
    parseCommand "$_ab" = .ok (.js "$_ab") ∧
    specGrammarPathOk ⟨List.replicate 101 'a'⟩ = true ∧
    parseCommand ⟨'$' :: List.replicate 101 'a'⟩ =
      .ok (.js ⟨'$' :: List.replicate 101 'a'⟩) :=
  ⟨rfl, rfl, rfl, rfl, rfl, rfl⟩

/-- C1 amended: classification of `"$" + p` as a command invocation with
the dot-to-slash-normalized name and empty arguments holds for the paths
the code accepts: every component has length between `MIN_LENGTH` (2) and
`MAX_LENGTH` (100), starts with an ASCII letter or digit (so not with an
underscore), and uses only `[A-Za-z0-9_-]`; components are joined by `.`
or `/` with no trailing separator. -/
theorem c1_valid_path_classification (comps : List (List Char))
    (seps : List Char) (hne : comps ≠ [])
    (hcomp : ∀ comp ∈ comps, codeComponentOK comp = true)
    (hsep : ∀ s ∈ seps, s = '.' ∨ s = '/')
    (hlen : seps.length + 1 = comps.length) :
    parseCommand ⟨'$' :: renderPath comps seps⟩ =
      .ok (.command ⟨pyJoin '/' comps⟩ []) := by
  have hcne : ∀ comp ∈ comps, comp ≠ [] :=
    fun comp hc => codeComponentOK_ne_nil comp (hcomp comp hc)
  have hchars : ∀ comp ∈ comps, ∀ ch ∈ comp,
      (isAsciiAlnum ch || ch == '_' || ch == '-') = true :=
    fun comp hc => codeComponentOK_chars comp (hcomp comp hc)
  have hallns : ∀ ch ∈ renderPath comps seps, isPySpace ch = false :=
    renderPath_chars comps seps
      (fun comp hc ch hch => not_pySpace_of_compChar ch (hchars comp hc ch hch))
      (fun s hs => not_pySpace_of_sep s (hsep s hs))
  obtain ⟨c0, r0, hshape, hc0⟩ : ∃ c r, renderPath comps seps = c :: r ∧
      (isAsciiAlnum c || c == '_' || c == '-') = true := by
    rcases comps with _ | ⟨x, rest⟩
    · exact absurd rfl hne
    rcases x with _ | ⟨c, ys⟩
    · exact absurd rfl (hcne [] (by simp))
    obtain ⟨r, hr⟩ := renderPath_cons_head c ys rest seps
    exact ⟨c, r, hr, hchars (c :: ys) (by simp) c (by simp)⟩
  have hpe : (renderPath comps seps).isEmpty = false := by rw [hshape]; rfl
  have hstripP : pyStripL (renderPath comps seps) = renderPath comps seps :=
    pyStripL_eq_self_of_all hallns
  have hdrop1 : List.drop 1 ('$' :: renderPath comps seps) =
      renderPath comps seps := rfl
  obtain ⟨lc, hlcp, hlcchar⟩ : ∃ lc,
      (renderPath comps seps).getLast? = some lc ∧
      (isAsciiAlnum lc || lc == '_' || lc == '-') = true := by
    have hlmem : comps.getLast hne ∈ comps := List.getLast_mem hne
    have hlnil : comps.getLast hne ≠ [] := hcne _ hlmem
    refine ⟨(comps.getLast hne).getLast hlnil, ?_,
      hchars _ hlmem _ (List.getLast_mem hlnil)⟩
    rw [renderPath_getLast? comps seps _ (List.getLast?_eq_getLast _ hne)
      hcne hlen, List.getLast?_eq_getLast _ hlnil]
  have hlcpat : isListChildrenPattern (renderPath comps seps) = false := by
    unfold isListChildrenPattern
    rw [lcGroup1_none_of_last _ lc hlcp (compChar_not_dotSlash lc hlcchar)]
    rfl
  have hc0slash : ('/' == c0) = false := by
    rw [beq_eq_false_iff_ne]
    intro he
    exact compChar_ne_slash c0 hc0 he.symm
  have hslash1 : List.isPrefixOf "/".data (renderPath comps seps) = false := by
    rw [hshape]
    show (('/' == c0) && List.isPrefixOf [] r0) = false
    rw [hc0slash]
    rfl
  have hslash2 : List.isPrefixOf "//".data (renderPath comps seps) = false := by
    rw [hshape]
    show (('/' == c0) && List.isPrefixOf ['/'] r0) = false
    rw [hc0slash]
    rfl
  have hpref : List.isPrefixOf ['$'] ('$' :: renderPath comps seps) = true :=
    List.isPrefixOf_iff_prefix.mpr ⟨renderPath comps seps, rfl⟩
  have hbeq : (('$' :: renderPath comps seps : List Char) == ['$']) = false := by
    rw [hshape]
    rfl
  simp only [parseCommand]
  rw [if_neg (by rw [hpref]; decide)]
  rw [if_neg (by rw [hbeq]; decide)]
  rw [if_neg ?hws]
  case hws =>
    intro hcon
    rw [hdrop1, hshape] at hcon
    simp only [] at hcon
    rw [hallns c0 (by rw [hshape]; simp)] at hcon
    exact absurd hcon (by decide)
  rw [hdrop1, hstripP]
  rw [if_neg (by rw [hpe]; decide)]
  rw [if_neg (by rw [hlcpat]; decide)]
  rw [if_neg (by rw [hslash1]; simp)]
  rw [if_neg (by rw [hslash2]; decide)]
  simp only [parseDotCommand, ite_self]
  rw [parseCommandInvocation_renderPath comps seps hne hcomp hsep hlen]

/-- C1 witness: the amended classification at `comps = [fo, bar]` joined
by a dot: `"$fo.bar"` classifies as the command `fo/bar` with no
arguments. -/
theorem c1_valid_path_classification_witness :
    parseCommand "$fo.bar" = .ok (.command "fo/bar" []) := by
  exact c1_valid_path_classification [['f', 'o'], ['b', 'a', 'r']] ['.']
    (by decide) (by decide) (by decide) (by decide)

end Emilybot
